import Mathlib

/-!
# MiniGit: a shallow embedding of the repository state engine

The definitions below follow `src/functions.h` and `src/functions.cpp`, and the loop of
`main` in `src/main.cpp`.

Modelling conventions.

* `std::string` is `String` (the byte strings that are UTF-8 text); `std::vector<T>` is
  `List T` and `push_back x` is `· ++ [x]`.
* `std::map<string, FileInfo>` is a list of key/value pairs kept in strictly ascending key
  order (`FileMap`); iterating the map is iterating the list. The functions do not require
  the list to be ordered, separate lemmas show that every map the program builds is.
* A `CommitNode*` is a value of the inductive type `CommitNode`: `nullptr`, or a node given
  by its fields, the last of which is the `parent` pointer.
* `std::hash<std::string>` is implementation defined: `hashString` is a parameter.
* The file system and the clock are inputs: a `FileSystem` tells for a path whether it
  exists and which entries the directory has, `getCurrentTimestamp()` is an argument.
  A path that exists is taken to be a directory that can be iterated. `init` is given the
  disk in more detail (`InitDisk`): a path may hold something that is not a directory, and
  the creation of a directory may be refused, in which case `init` throws.
* `int` and `size_t` values are mathematical integers: the embedding describes the runs in
  which `nextCommitId` and the line indices stay in the range of `int`.
* Text written to `std::cout` is not modelled, except that `status` and `log` return the
  lists they print; one round of the command loop is a function of the line read from
  `std::cin`.
-/

/-! ## Strings -/

/-- The order of `std::string::compare`: lexicographic on the characters, a proper prefix
comes first. (On UTF-8 text, comparing code points orders two strings as comparing their
bytes does.) -/
def lexLess : List Char → List Char → Bool
  | _, [] => false
  | [], _ :: _ => true
  | a :: as, b :: bs => if a < b then true else if b < a then false else lexLess as bs

/-- The `operator<` of `std::string`, which `std::map<string, _>` orders its keys by. -/
def strLess (a b : String) : Bool := lexLess a.data b.data

/-- Whether `pat` occurs somewhere in `s`. -/
def containsAt (pat : List Char) : List Char → Bool
  | [] => pat.isPrefixOf []
  | c :: cs => pat.isPrefixOf (c :: cs) || containsAt pat cs

/-- The test `s.find(pat) != string::npos`. -/
def strContains (s pat : String) : Bool := containsAt pat.data s.data

/-! ## Data model (`functions.h`) -/

/-- The struct `FileDelta`. -/
structure FileDelta where
  filename : String
  addedLines : List String
  deletedLines : List String
  modifiedLineNumbers : List Int
deriving DecidableEq

/-- The struct `FileInfo`. -/
structure FileInfo where
  filename : String
  hash : Nat
  content : String
  isDeleted : Bool
deriving DecidableEq

/-- The constructor `FileInfo(name, h, c)`, which sets `isDeleted` to `false`. -/
def FileInfo.make (name : String) (h : Nat) (c : String) : FileInfo :=
  { filename := name, hash := h, content := c, isDeleted := false }

/-- A `std::map<string, FileInfo>`: its entries in iteration order. -/
abbrev FileMap := List (String × FileInfo)

namespace FileMap

/-- The lookup `m.find(k)`: `none` stands for `m.end()`. -/
def find : FileMap → String → Option FileInfo
  | [], _ => none
  | (k', v) :: rest, k => if k' = k then some v else find rest k

/-- The assignment `m[k] = v`: a new key is put at its place in the key order, the value
of a key already present is replaced. -/
def insert : FileMap → String → FileInfo → FileMap
  | [], k, v => [(k, v)]
  | (k', v') :: rest, k, v =>
    if strLess k k' then (k, v) :: (k', v') :: rest
    else if strLess k' k then (k', v') :: insert rest k v
    else (k, v) :: rest

/-- The keys of the map, in iteration order. -/
def keys (m : FileMap) : List String := m.map Prod.fst

/-- The keys are strictly ascending, as in every `std::map`. -/
def Ordered (m : FileMap) : Prop := m.Pairwise (fun a b => strLess a.1 b.1 = true)

end FileMap

/-- A value of type `CommitNode*`: `nullptr`, or a node with the fields of the struct
`CommitNode`, the last one being its `parent`. -/
inductive CommitNode where
  | nullptr : CommitNode
  | node (commitId : Int) (message : String) (timestamp : String) (files : FileMap)
      (deltas : List FileDelta) (addedFiles : List String) (deletedFiles : List String)
      (parent : CommitNode) : CommitNode
deriving DecidableEq

/-- The private fields of the class `MiniGit`. -/
structure MiniGit where
  repoPath : String
  gitDir : String
  initialized : Bool
  head : CommitNode
  nextCommitId : Int
  stagingArea : FileMap
  lastCommitState : FileMap
deriving DecidableEq

/-! ## The file system seen by the engine -/

/-- One entry of a `fs::directory_iterator`. -/
structure DirEntry where
  filename : String
  isRegularFile : Bool
  /-- The bytes of the file, `none` when the file cannot be opened. -/
  content : Option String
deriving DecidableEq

/-- The state of the disk: `none` for a path that does not exist, else the entries of the
directory, in the order the iterator yields them. -/
abbrev FileSystem := String → Option (List DirEntry)

/-- The helper `MiniGit::readFileContent`: the empty string when the file cannot be
opened. -/
def MiniGit.readFileContent (entry : DirEntry) : String :=
  match entry.content with
  | none => ""
  | some bytes => bytes

namespace MiniGit

/-- The constructor `MiniGit::MiniGit()`. -/
def new : MiniGit :=
  { repoPath := "", gitDir := "", initialized := false, head := CommitNode.nullptr,
    nextCommitId := 1, stagingArea := [], lastCommitState := [] }

/-! ## Delta engine -/

/-- One call of `std::getline(ss, line)` on the unread characters of the stream: `none`
when nothing can be extracted, else the line (the terminator is consumed and dropped) and
the characters left. -/
def getline : List Char → Option (List Char × List Char)
  | [] => none
  | c :: cs =>
    if c = '\n' then some ([], cs)
    else
      match getline cs with
      | none => some ([c], [])
      | some (line, rest) => some (c :: line, rest)

/-- The loop `while (getline(ss, line)) lines.push_back(line);`. Every round consumes a
character, so `fuel` larger than the number of unread characters is never used up. -/
def splitLinesLoop : Nat → List Char → List String → List String
  | 0, _, lines => lines
  | fuel + 1, ss, lines =>
    match getline ss with
    | none => lines
    | some (line, rest) => splitLinesLoop fuel rest (lines ++ [String.mk line])

/-- The helper `MiniGit::splitLines`. -/
def splitLines (content : String) : List String :=
  splitLinesLoop (content.data.length + 1) content.data []

/-- The body of the loop "Find modified lines" of `computeDelta` at index `i`. -/
def modifiedStep (oldLines newLines : List String) (delta : FileDelta) (i : Nat) :
    FileDelta :=
  if oldLines.getD i "" ≠ newLines.getD i "" then
    { delta with
      modifiedLineNumbers := delta.modifiedLineNumbers ++ [(i : Int)]
      deletedLines := delta.deletedLines ++ [oldLines.getD i ""]
      addedLines := delta.addedLines ++ [newLines.getD i ""] }
  else delta

/-- The helper `MiniGit::computeDelta`. -/
def computeDelta (filename oldContent newContent : String) : FileDelta :=
  let delta : FileDelta :=
    { filename := filename, addedLines := [], deletedLines := [], modifiedLineNumbers := [] }
  let oldLines := splitLines oldContent
  let newLines := splitLines newContent
  let minSize := min oldLines.length newLines.length
  let delta := (List.range minSize).foldl (modifiedStep oldLines newLines) delta
  let delta :=
    if newLines.length > oldLines.length then
      (List.range' minSize (newLines.length - minSize)).foldl
        (fun d i => { d with addedLines := d.addedLines ++ [newLines.getD i ""] }) delta
    else delta
  let delta :=
    if oldLines.length > newLines.length then
      (List.range' minSize (oldLines.length - minSize)).foldl
        (fun d i => { d with deletedLines := d.deletedLines ++ [oldLines.getD i ""] }) delta
    else delta
  delta

/-! ## Snapshot builder -/

/-- The body of the loop over the directory entries in `scanRepository`. -/
def scanEntry (hashString : String → Nat) (stagingArea : FileMap) (entry : DirEntry) :
    FileMap :=
  if entry.isRegularFile then
    let filename := entry.filename
    if strContains filename ".minigit" then stagingArea
    else
      let content := readFileContent entry
      let hash := hashString content
      FileMap.insert stagingArea filename (FileInfo.make filename hash content)
  else stagingArea

/-- The helper `MiniGit::scanRepository`: it rebuilds `stagingArea` from the disk. -/
def scanRepository (hashString : String → Nat) (fs : FileSystem) (st : MiniGit) : MiniGit :=
  let st := { st with stagingArea := [] }
  match fs st.repoPath with
  | none => st
  | some entries =>
    { st with stagingArea := entries.foldl (scanEntry hashString) st.stagingArea }

/-- What `init` finds at a path of the disk. -/
inductive PathKind where
  /-- Nothing is there: `fs::exists` is false. -/
  | missing : PathKind
  /-- Something that is not a directory, such as a regular file. -/
  | notDirectory : PathKind
  /-- A directory. -/
  | directory : PathKind
deriving DecidableEq

/-- The disk as `init` meets it: what is at each path before the call, and the paths at
which the operating system refuses to create a directory (no permission, a parent that
is missing or is not a directory, a full disk). -/
structure InitDisk where
  kind : String → PathKind
  refuses : String → Bool

/-- How a call of `init` ends: it returns, or `fs::create_directories` or
`fs::create_directory` throws and the exception leaves `init` (nothing in the program
catches it). In both cases the object is given as the call leaves it. -/
inductive InitResult where
  | returned (git : MiniGit) : InitResult
  | thrown (git : MiniGit) : InitResult
deriving DecidableEq

/-- The object a call of `init` leaves behind. -/
def InitResult.git : InitResult → MiniGit
  | InitResult.returned git => git
  | InitResult.thrown git => git

/-- The object after a call `init(path)` that returns: the three assignments of
`MiniGit::init`. -/
def afterInit (path : String) (st : MiniGit) : MiniGit :=
  { st with repoPath := path, gitDir := path ++ "/.minigit", initialized := true }

/-- The method `MiniGit::init`. The directory `repoPath` is created when nothing is at
the path, and so is `gitDir`; nothing is found at `gitDir` when `repoPath` has just been
created or is not a directory. Creating `gitDir` throws when `repoPath` is not a
directory or the system refuses, and `initialized = true` is only reached when nothing
was thrown. (The directories created on disk are part of the next `FileSystem` the engine
is given.) -/
def init (disk : InitDisk) (path : String) (st : MiniGit) : InitResult :=
  let st := { st with repoPath := path }
  let repoMissing : Bool := decide (disk.kind st.repoPath = PathKind.missing)
  if repoMissing = true ∧ disk.refuses st.repoPath = true then InitResult.thrown st
  else
    let st := { st with gitDir := st.repoPath ++ "/.minigit" }
    let gitDirMissing : Bool :=
      repoMissing || decide (disk.kind st.repoPath = PathKind.notDirectory) ||
        decide (disk.kind st.gitDir = PathKind.missing)
    if gitDirMissing = true ∧
        (disk.kind st.repoPath = PathKind.notDirectory ∨ disk.refuses st.gitDir = true) then
      InitResult.thrown st
    else InitResult.returned { st with initialized := true }

/-! ## Status reporter -/

/-- The three vectors `status` fills and prints. -/
structure StatusReport where
  newFiles : List String
  modifiedFiles : List String
  deletedFiles : List String
deriving DecidableEq

/-- The loop "Check for new files" (in `commit`: "Find new files", names only). -/
def findNewFiles (stagingArea lastCommitState : FileMap) : List String :=
  stagingArea.foldl
    (fun newFiles entry =>
      if lastCommitState.find entry.1 = none then newFiles ++ [entry.1] else newFiles) []

/-- The condition `it != lastCommitState.end() && it->second.hash != fileInfo.hash`. -/
def hashDiffers (lastCommitState : FileMap) (entry : String × FileInfo) : Bool :=
  match lastCommitState.find entry.1 with
  | none => false
  | some old => old.hash != entry.2.hash

/-- The loop "Check for modified files". -/
def findModifiedFiles (stagingArea lastCommitState : FileMap) : List String :=
  stagingArea.foldl
    (fun modifiedFiles entry =>
      if hashDiffers lastCommitState entry then modifiedFiles ++ [entry.1]
      else modifiedFiles) []

/-- The loop "Check for deleted files" (in `commit`: "Find deleted files"). -/
def findDeletedFiles (stagingArea lastCommitState : FileMap) : List String :=
  lastCommitState.foldl
    (fun deletedFiles entry =>
      if stagingArea.find entry.1 = none then deletedFiles ++ [entry.1]
      else deletedFiles) []

/-- The method `MiniGit::status`: the object after the call, and the lists it prints
(`none` when it only reports that the repository is not initialized). -/
def status (hashString : String → Nat) (fs : FileSystem) (st : MiniGit) :
    MiniGit × Option StatusReport :=
  if st.initialized = false then (st, none)
  else
    let st := scanRepository hashString fs st
    let newFiles := findNewFiles st.stagingArea st.lastCommitState
    let modifiedFiles := findModifiedFiles st.stagingArea st.lastCommitState
    let deletedFiles := findDeletedFiles st.stagingArea st.lastCommitState
    (st, some { newFiles := newFiles, modifiedFiles := modifiedFiles,
                deletedFiles := deletedFiles })

/-! ## Commit history -/

/-- The loop of the first commit: every staged entry is stored in `newCommit->files`. -/
def rootFiles (stagingArea : FileMap) : FileMap :=
  stagingArea.foldl (fun files entry => FileMap.insert files entry.1 entry.2) []

/-- The loop "Find new files" of `commit`, for the map `newCommit->files`. -/
def addedFileInfos (stagingArea lastCommitState : FileMap) : FileMap :=
  stagingArea.foldl
    (fun files entry =>
      if lastCommitState.find entry.1 = none then FileMap.insert files entry.1 entry.2
      else files) []

/-- The loop "Find modified files and compute deltas" of `commit`. -/
def findDeltas (stagingArea lastCommitState : FileMap) : List FileDelta :=
  stagingArea.foldl
    (fun deltas entry =>
      match lastCommitState.find entry.1 with
      | none => deltas
      | some old =>
        if old.hash != entry.2.hash then
          deltas ++ [computeDelta entry.1 old.content entry.2.content]
        else deltas) []

/-- The method `MiniGit::commit`; `timestamp` is what `getCurrentTimestamp()` returns. -/
def commit (hashString : String → Nat) (fs : FileSystem) (timestamp : String)
    (message : String) (st : MiniGit) : MiniGit :=
  if st.initialized = false then st
  else
    let st := scanRepository hashString fs st
    let commitId := st.nextCommitId
    let st := { st with nextCommitId := st.nextCommitId + 1 }
    let newCommit : CommitNode :=
      match st.head with
      | CommitNode.nullptr =>
        CommitNode.node commitId message timestamp (rootFiles st.stagingArea) [] [] []
          st.head
      | CommitNode.node _ _ _ _ _ _ _ _ =>
        CommitNode.node commitId message timestamp
          (addedFileInfos st.stagingArea st.lastCommitState)
          (findDeltas st.stagingArea st.lastCommitState)
          (findNewFiles st.stagingArea st.lastCommitState)
          (findDeletedFiles st.stagingArea st.lastCommitState)
          st.head
    { st with head := newCommit, lastCommitState := st.stagingArea }

/-- One call of `commit`, with what the environment supplies to it. -/
structure CommitCall where
  fs : FileSystem
  timestamp : String
  message : String

/-- A sequence of `commit` calls made one after the other. -/
def commitAll (hashString : String → Nat) (calls : List CommitCall) (st : MiniGit) :
    MiniGit :=
  calls.foldl (fun st call => commit hashString call.fs call.timestamp call.message st) st

/-- What `log` prints for one commit. -/
structure LogEntry where
  commitId : Int
  message : String
  timestamp : String
  addedFiles : List String
  modifiedFiles : List String
  deletedFiles : List String
deriving DecidableEq

/-- The loop `while (current != nullptr)` of `log`, which follows the `parent` links. -/
def logEntries : CommitNode → List LogEntry
  | CommitNode.nullptr => []
  | CommitNode.node commitId message timestamp _ deltas addedFiles deletedFiles parent =>
    { commitId := commitId, message := message, timestamp := timestamp,
      addedFiles := addedFiles, modifiedFiles := deltas.map FileDelta.filename,
      deletedFiles := deletedFiles } :: logEntries parent

/-- What one call of `log` prints. -/
inductive LogOutput where
  /-- "Repository not initialized! Use 'init' first." -/
  | notInitialized : LogOutput
  /-- "No commits yet." -/
  | noCommits : LogOutput
  /-- The commit history, one entry for each round of the loop. -/
  | history (entries : List LogEntry) : LogOutput
deriving DecidableEq

/-- The method `MiniGit::log`: the object after the call and what the call prints. -/
def log (st : MiniGit) : MiniGit × LogOutput :=
  if st.initialized = false then (st, LogOutput.notInitialized)
  else
    match st.head with
    | CommitNode.nullptr => (st, LogOutput.noCommits)
    | CommitNode.node _ _ _ _ _ _ _ _ => (st, LogOutput.history (logEntries st.head))

/-! ## Command loop (`main.cpp`) -/

/-- The whitespace of `std::isspace` in the C locale, which `ss >> word` skips and stops
at. -/
def isSpace (c : Char) : Bool :=
  c = ' ' || c = '\t' || c = '\n' || c = '\x0b' || c = '\x0c' || c = '\r'

/-- The extraction `ss >> word` on the unread characters of the stream: the word (empty
when only whitespace is left) and the characters left. -/
def extractWord (ss : List Char) : List Char × List Char :=
  let ss := ss.dropWhile isSpace
  (ss.takeWhile (fun c => !isSpace c), ss.dropWhile (fun c => !isSpace c))

/-- The statement `getline(ss, message)` of the `commit` branch: `message` stays empty
when nothing can be extracted. -/
def readMessage (rest : List Char) : List Char :=
  match getline rest with
  | none => []
  | some (line, _) => line

/-- The statement `if (message[0] == ' ') message = message.substr(1);`. -/
def removeLeadingSpace : List Char → List Char
  | [] => []
  | c :: cs => if c = ' ' then cs else c :: cs

/-- One round of the loop of `main` on the line `command` read from `std::cin`: the
object `git` as the round leaves it (`help`, `exit` and unknown commands leave it as it
is; when `init` throws, the exception ends the program and the object is given as it was
at that point). -/
def mainLoopBody (hashString : String → Nat) (disk : InitDisk) (fs : FileSystem)
    (timestamp : String) (command : String) (git : MiniGit) : MiniGit :=
  if command.data = [] then git
  else
    let cmd := (extractWord command.data).1
    let ss := (extractWord command.data).2
    if cmd = "init".data then
      let path := (extractWord ss).1
      if path = [] then git else (init disk (String.mk path) git).git
    else if cmd = "status".data then (status hashString fs git).1
    else if cmd = "commit".data then
      let message := readMessage ss
      if message = [] then git
      else commit hashString fs timestamp (String.mk (removeLeadingSpace message)) git
    else if cmd = "log".data then (log git).1
    else git

/-! ## The line splitting of the specification -/

/-- The lines of a text in the words of the specification: the text is cut at each
`'\n'`, the terminators are dropped, and the segment after the last terminator counts as
a line exactly when it is not empty. -/
def cutLines (content : String) : List String :=
  let segments := content.data.splitOn '\n'
  let segments := if segments.getLast? = some [] then segments.dropLast else segments
  segments.map String.mk

/-- The segments of `cutLines` as lists of characters. -/
def cutSegments (ss : List Char) : List (List Char) :=
  if (ss.splitOn '\n').getLast? = some [] then (ss.splitOn '\n').dropLast
  else ss.splitOn '\n'

end MiniGit

namespace CommitNode

/-! Field access `p->field`. For `nullptr`, which the program never dereferences, the
accessors give the value of the field in a default-constructed `CommitNode()`. -/

/-- The field `commitId`. -/
def commitId : CommitNode → Int
  | nullptr => 0
  | node commitId _ _ _ _ _ _ _ => commitId

/-- The field `message`. -/
def message : CommitNode → String
  | nullptr => ""
  | node _ message _ _ _ _ _ _ => message

/-- The field `timestamp`. -/
def timestamp : CommitNode → String
  | nullptr => ""
  | node _ _ timestamp _ _ _ _ _ => timestamp

/-- The field `files`. -/
def files : CommitNode → FileMap
  | nullptr => []
  | node _ _ _ files _ _ _ _ => files

/-- The field `deltas`. -/
def deltas : CommitNode → List FileDelta
  | nullptr => []
  | node _ _ _ _ deltas _ _ _ => deltas

/-- The field `addedFiles`. -/
def addedFiles : CommitNode → List String
  | nullptr => []
  | node _ _ _ _ _ addedFiles _ _ => addedFiles

/-- The field `deletedFiles`. -/
def deletedFiles : CommitNode → List String
  | nullptr => []
  | node _ _ _ _ _ _ deletedFiles _ => deletedFiles

/-- The field `parent`. -/
def parent : CommitNode → CommitNode
  | nullptr => nullptr
  | node _ _ _ _ _ _ _ parent => parent

/-- The filenames of the field `deltas`. -/
def deltaFiles (c : CommitNode) : List String := c.deltas.map FileDelta.filename

end CommitNode

/-- What `log` prints for the node `c`: its id, message and timestamp, and the filenames
of its `addedFiles`, `deltas` and `deletedFiles`. -/
def CommitNode.logEntry (c : CommitNode) : MiniGit.LogEntry :=
  { commitId := c.commitId, message := c.message, timestamp := c.timestamp,
    addedFiles := c.addedFiles, modifiedFiles := c.deltaFiles,
    deletedFiles := c.deletedFiles }

/-- The values of `commitId` along the `parent` links, starting at the given node. -/
def CommitNode.ids : CommitNode → List Int
  | CommitNode.nullptr => []
  | CommitNode.node commitId _ _ _ _ _ _ parent => commitId :: CommitNode.ids parent

/-- A hash function used to run the scenarios on concrete inputs. -/
def sampleHash (s : String) : Nat :=
  s.data.foldl (fun h c => (31 * h + c.toNat) % 18446744073709551616) 7

/-- A disk on which only the path `repo` exists, with the given directory entries. -/
def diskWith (entries : List DirEntry) : FileSystem :=
  fun path => if path = "repo" then some entries else none

/-- A readable regular file. -/
def regularFile (filename content : String) : DirEntry :=
  { filename := filename, isRegularFile := true, content := some content }

/-- The directory entry of the metadata directory that `init` creates. -/
def metadataDir : DirEntry :=
  { filename := ".minigit", isRegularFile := false, content := none }

/-- The disk of Scenario A: the directory holds nothing but the metadata directory. -/
def diskA : FileSystem := diskWith [metadataDir]

/-- Scenario A: `init` on an empty directory, then `commit("initial")`. -/
def scenarioA (hashString : String → Nat) : MiniGit :=
  MiniGit.commit hashString diskA "t1" "initial" (MiniGit.afterInit "repo" MiniGit.new)

/-- The first disk of Scenario B: the directory holds `a.txt = "x"`. -/
def diskB : FileSystem := diskWith [metadataDir, regularFile "a.txt" "x"]

/-- Scenario B before its `status`: `init` on a directory with `a.txt = "x"`, then
`commit("c1")`. -/
def scenarioB (hashString : String → Nat) : MiniGit :=
  MiniGit.commit hashString diskB "t1" "c1" (MiniGit.afterInit "repo" MiniGit.new)

/-- The disk of Scenarios B and C: `a.txt` was edited to `"y"`. -/
def diskC : FileSystem := diskWith [metadataDir, regularFile "a.txt" "y"]

/-- Scenario C: after Scenario B, `commit("c2")`. -/
def scenarioC (hashString : String → Nat) : MiniGit :=
  MiniGit.commit hashString diskC "t2" "c2" (scenarioB hashString)

/-- The disk of Scenario D: `b.txt = "z"` was added. -/
def diskD : FileSystem :=
  diskWith [regularFile "b.txt" "z", metadataDir, regularFile "a.txt" "y"]

/-- Scenario D: after Scenario C, `commit("c3")`. -/
def scenarioD (hashString : String → Nat) : MiniGit :=
  MiniGit.commit hashString diskD "t3" "c3" (scenarioC hashString)

/-- The disk of Scenario E: `a.txt` was deleted. -/
def diskE : FileSystem := diskWith [regularFile "b.txt" "z", metadataDir]

/-- Scenario E: after Scenario D, `commit("c4")`. -/
def scenarioE (hashString : String → Nat) : MiniGit :=
  MiniGit.commit hashString diskE "t4" "c4" (scenarioD hashString)

/-- A later disk: `a.txt` is gone, `b.txt` was edited to `"w"`, `c.txt = "q"` is new. -/
def diskF : FileSystem :=
  diskWith [metadataDir, regularFile "c.txt" "q", regularFile "b.txt" "w"]

/-- A disk on which the path `repo` does not exist. -/
def diskMissing : FileSystem := fun _ => none

/-- A disk whose directory holds a regular file with `.minigit` in its name. -/
def diskNotes : FileSystem :=
  diskWith [metadataDir, regularFile "notes.minigit" "x", regularFile "a.txt" "y"]

/-- A disk on which `a.txt` holds `"a"`. -/
def diskG : FileSystem := diskWith [metadataDir, regularFile "a.txt" "a"]

/-- The disk `diskG` after a line terminator was appended to `a.txt`. -/
def diskH : FileSystem := diskWith [metadataDir, regularFile "a.txt" "a\n"]

/-- A disk on which a second directory, `other`, holds `c.txt = "q"`. -/
def diskOther : FileSystem :=
  fun path => if path = "other" then some [metadataDir, regularFile "c.txt" "q"] else none

/-- A disk for `init` on which `repo` and `other` are directories without a `.minigit`
entry and no creation is refused. -/
def initDiskDirs : MiniGit.InitDisk :=
  { kind := fun path =>
      if path = "repo" ∨ path = "other" then MiniGit.PathKind.directory
      else MiniGit.PathKind.missing
    refuses := fun _ => false }

/-- A disk for `init` on which `f` is a regular file. -/
def initDiskFile : MiniGit.InitDisk :=
  { kind := fun path =>
      if path = "f" then MiniGit.PathKind.notDirectory else MiniGit.PathKind.missing
    refuses := fun _ => false }

/-- The two `commit` calls of Scenarios B and C. -/
def callsC : List MiniGit.CommitCall :=
  [{ fs := diskB, timestamp := "t1", message := "c1" },
   { fs := diskC, timestamp := "t2", message := "c2" }]

/-! ## Lemmas on the delta engine -/

namespace MiniGit

theorem getline_length_lt (ss line rest : List Char)
    (h : getline ss = some (line, rest)) : rest.length < ss.length := by
  induction ss generalizing line rest with
  | nil => simp [getline] at h
  | cons c cs ih =>
    unfold getline at h
    split at h
    · cases h
      simp
    · cases hg : getline cs with
      | none =>
        rw [hg] at h
        cases h
        simp
      | some p =>
        obtain ⟨l, r⟩ := p
        rw [hg] at h
        cases h
        have := ih l rest hg
        simp only [List.length_cons]
        omega

/-- The loop of `splitLines` leaves through a failing `getline`, never because the fuel
is used up: any two amounts of fuel above the number of unread characters give the same
lines. -/
theorem splitLinesLoop_fuel (fuel fuel' : Nat) (ss : List Char) (lines : List String)
    (h : ss.length < fuel) (h' : ss.length < fuel') :
    splitLinesLoop fuel ss lines = splitLinesLoop fuel' ss lines := by
  induction fuel generalizing fuel' ss lines with
  | zero => omega
  | succ n ih =>
    cases fuel' with
    | zero => omega
    | succ m =>
      unfold splitLinesLoop
      cases hg : getline ss with
      | none => rfl
      | some p =>
        obtain ⟨line, rest⟩ := p
        have hlt := getline_length_lt ss line rest hg
        exact ih m rest _ (by omega) (by omega)

theorem foldl_modifiedStep (o n : List String) (is : List Nat) (d : FileDelta) :
    is.foldl (modifiedStep o n) d =
      { filename := d.filename
        addedLines := d.addedLines ++
          (is.filter (fun i => o.getD i "" ≠ n.getD i "")).map (fun i => n.getD i "")
        deletedLines := d.deletedLines ++
          (is.filter (fun i => o.getD i "" ≠ n.getD i "")).map (fun i => o.getD i "")
        modifiedLineNumbers := d.modifiedLineNumbers ++
          (is.filter (fun i => o.getD i "" ≠ n.getD i "")).map (fun i => (i : Int)) } := by
  induction is generalizing d with
  | nil => simp
  | cons i is ih =>
    rw [List.foldl_cons, ih]
    by_cases h : o[i]?.getD "" = n[i]?.getD ""
    · simp [modifiedStep, h]
    · simp [modifiedStep, h]

theorem foldl_push_added (n : List String) (is : List Nat) (d : FileDelta) :
    is.foldl (fun d i => { d with addedLines := d.addedLines ++ [n.getD i ""] }) d =
      { d with addedLines := d.addedLines ++ is.map (fun i => n.getD i "") } := by
  induction is generalizing d with
  | nil => simp
  | cons i is ih => rw [List.foldl_cons, ih]; simp

theorem foldl_push_deleted (o : List String) (is : List Nat) (d : FileDelta) :
    is.foldl (fun d i => { d with deletedLines := d.deletedLines ++ [o.getD i ""] }) d =
      { d with deletedLines := d.deletedLines ++ is.map (fun i => o.getD i "") } := by
  induction is generalizing d with
  | nil => simp
  | cons i is ih => rw [List.foldl_cons, ih]; simp

theorem map_getD_range' (l : List String) (m : Nat) :
    (List.range' m (l.length - m)).map (fun i => l.getD i "") = l.drop m := by
  apply List.ext_getElem?
  intro i
  simp only [List.getElem?_map, List.getElem?_range', List.getElem?_drop]
  by_cases h : i < l.length - m
  · have h2 : m + i < l.length := by omega
    simp [h, List.getD_eq_getElem?_getD, List.getElem?_eq_getElem h2]
  · have h2 : l.length ≤ m + i := by omega
    have h3 : l.length ≤ i + m := by omega
    simp [h, List.getElem?_eq_none h2, h3]


theorem computeDelta_eq (filename oldContent newContent : String) :
    computeDelta filename oldContent newContent =
      { filename := filename
        addedLines :=
          ((List.range (min (splitLines oldContent).length (splitLines newContent).length)).filter
            (fun i => (splitLines oldContent).getD i "" ≠ (splitLines newContent).getD i "")).map
              (fun i => (splitLines newContent).getD i "") ++
          (splitLines newContent).drop
            (min (splitLines oldContent).length (splitLines newContent).length)
        deletedLines :=
          ((List.range (min (splitLines oldContent).length (splitLines newContent).length)).filter
            (fun i => (splitLines oldContent).getD i "" ≠ (splitLines newContent).getD i "")).map
              (fun i => (splitLines oldContent).getD i "") ++
          (splitLines oldContent).drop
            (min (splitLines oldContent).length (splitLines newContent).length)
        modifiedLineNumbers :=
          ((List.range (min (splitLines oldContent).length (splitLines newContent).length)).filter
            (fun i => (splitLines oldContent).getD i "" ≠ (splitLines newContent).getD i "")).map
              (fun i => (i : Int)) } := by
  unfold computeDelta
  generalize splitLines oldContent = o
  generalize splitLines newContent = n
  simp only [foldl_modifiedStep, foldl_push_added, foldl_push_deleted, List.nil_append]
  rcases Nat.lt_trichotomy o.length n.length with h | h | h
  · have hm : min o.length n.length = o.length := by omega
    have h1 : n.length > o.length := h
    have h2 : ¬ o.length > n.length := by omega
    simp only [h1, h2, if_true, if_false, hm, map_getD_range', List.drop_length,
      List.append_nil]
  · have h1 : ¬ n.length > o.length := by omega
    have h2 : ¬ o.length > n.length := by omega
    rw [if_neg h1, if_neg h2, h, Nat.min_self, List.drop_length,
      List.drop_of_length_le (le_of_eq h), List.append_nil, List.append_nil]
  · have hm : min o.length n.length = n.length := by omega
    have h1 : ¬ n.length > o.length := by omega
    have h2 : o.length > n.length := h
    simp only [h1, h2, if_true, if_false, hm, map_getD_range', List.drop_length,
      List.append_nil]


theorem filterMap_getElem?_eq_map_getD (l : List String) (is : List Nat)
    (h : ∀ i ∈ is, i < l.length) :
    is.filterMap (fun i => l[i]?) = is.map (fun i => l.getD i "") := by
  induction is with
  | nil => rfl
  | cons i is ih =>
    have hi : i < l.length := h i (List.mem_cons_self i is)
    have ih2 := ih (fun j hj => h j (List.mem_cons_of_mem i hj))
    simp only [List.filterMap_cons, List.map_cons, List.getElem?_eq_getElem hi, ih2,
      List.getD_eq_getElem?_getD, Option.getD_some]

theorem changed_filter_eq (o n : List String) :
    (List.range (min o.length n.length)).filter (fun i => o[i]? ≠ n[i]?) =
      (List.range (min o.length n.length)).filter (fun i => o.getD i "" ≠ n.getD i "") := by
  apply List.filter_congr
  intro i hi
  have hlt : i < min o.length n.length := List.mem_range.mp hi
  have ho : i < o.length := lt_of_lt_of_le hlt (min_le_left _ _)
  have hn : i < n.length := lt_of_lt_of_le hlt (min_le_right _ _)
  simp [List.getD_eq_getElem?_getD, List.getElem?_eq_getElem ho, List.getElem?_eq_getElem hn]

theorem computeDelta_closed_form (filename oldContent newContent : String)
    (oldLines newLines : List String) (ho : oldLines = splitLines oldContent)
    (hn : newLines = splitLines newContent) :
    computeDelta filename oldContent newContent =
      { filename := filename
        modifiedLineNumbers :=
          ((List.range (min oldLines.length newLines.length)).filter
            (fun i => oldLines[i]? ≠ newLines[i]?)).map (fun i => (i : Int))
        addedLines :=
          ((List.range (min oldLines.length newLines.length)).filter
            (fun i => oldLines[i]? ≠ newLines[i]?)).filterMap (fun i => newLines[i]?) ++
          newLines.drop (min oldLines.length newLines.length)
        deletedLines :=
          ((List.range (min oldLines.length newLines.length)).filter
            (fun i => oldLines[i]? ≠ newLines[i]?)).filterMap (fun i => oldLines[i]?) ++
          oldLines.drop (min oldLines.length newLines.length) } := by
  have hlt : ∀ i ∈ (List.range (min oldLines.length newLines.length)).filter
      (fun i => oldLines[i]? ≠ newLines[i]?), i < min oldLines.length newLines.length :=
    fun i hi => List.mem_range.mp (List.mem_filter.mp hi).1
  rw [filterMap_getElem?_eq_map_getD newLines _
      (fun i hi => lt_of_lt_of_le (hlt i hi) (min_le_right _ _)),
    filterMap_getElem?_eq_map_getD oldLines _
      (fun i hi => lt_of_lt_of_le (hlt i hi) (min_le_left _ _)),
    changed_filter_eq oldLines newLines, ho, hn]
  exact computeDelta_eq filename oldContent newContent

/-- C1. For every filename and contents, with `oldLines` and `newLines` the lines of the
two contents and `m` the smaller of their numbers: `computeDelta` returns the delta with
that filename whose `modifiedLineNumbers` are the indices `i < m`, ascending, at which the
two lines differ, whose `addedLines` are the new lines at those indices followed by
`newLines[m..]`, and whose `deletedLines` are the old lines at those indices followed by
`oldLines[m..]`. -/
theorem computeDelta_spec (filename oldContent newContent : String) :
    computeDelta filename oldContent newContent =
      let oldLines := splitLines oldContent
      let newLines := splitLines newContent
      let m := min oldLines.length newLines.length
      let changed := (List.range m).filter (fun i => oldLines[i]? ≠ newLines[i]?)
      { filename := filename
        modifiedLineNumbers := changed.map (fun i => (i : Int))
        addedLines := changed.filterMap (fun i => newLines[i]?) ++ newLines.drop m
        deletedLines := changed.filterMap (fun i => oldLines[i]?) ++ oldLines.drop m } :=
  computeDelta_closed_form filename oldContent newContent _ _ rfl rfl

/-- C1, Scenario C: the delta from `"x"` to `"y"` for `a.txt`. -/
theorem computeDelta_scenarioC :
    computeDelta "a.txt" "x" "y" =
      { filename := "a.txt", addedLines := ["y"], deletedLines := ["x"],
        modifiedLineNumbers := [0] } :=
  (computeDelta_spec "a.txt" "x" "y").trans (by decide)

/-- C10. For every filename and content `c`, the delta from `c` to `c` has no added
line, no deleted line and no modified line number. -/
theorem computeDelta_self (filename c : String) :
    (computeDelta filename c c).addedLines = [] ∧
    (computeDelta filename c c).deletedLines = [] ∧
    (computeDelta filename c c).modifiedLineNumbers = [] := by
  have hf : (List.range (min (splitLines c).length (splitLines c).length)).filter
      (fun i => (splitLines c).getD i "" ≠ (splitLines c).getD i "") = [] := by
    apply List.filter_eq_nil_iff.mpr
    intro i _
    simp
  rw [computeDelta_eq, hf]
  simp

end MiniGit

/-! ## Lemmas on the key order -/

theorem lexLess_irrefl (a : List Char) : lexLess a a = false := by
  induction a with
  | nil => rfl
  | cons c cs ih => simp [lexLess, ih]

theorem lexLess_asymm : ∀ (a b : List Char), lexLess a b = true → lexLess b a = false
  | _, [], h => by simp [lexLess] at h
  | [], _ :: _, _ => by simp [lexLess]
  | a :: as, b :: bs, h => by
    rcases lt_trichotomy a b with hab | hab | hab
    · simp [lexLess, hab, not_lt_of_lt hab]
    · subst hab
      simp only [lexLess, lt_irrefl, if_false] at h ⊢
      exact lexLess_asymm as bs h
    · simp [lexLess, hab, not_lt_of_lt hab] at h

theorem lexLess_trans : ∀ (a b c : List Char), lexLess a b = true → lexLess b c = true →
    lexLess a c = true
  | _, _, [], _, h2 => by simp [lexLess] at h2
  | _, [], _ :: _, h1, _ => by simp [lexLess] at h1
  | [], _ :: _, _ :: _, _, _ => by simp [lexLess]
  | a :: as, b :: bs, c :: cs, h1, h2 => by
    rcases lt_trichotomy a b with hab | hab | hab
    · rcases lt_trichotomy b c with hbc | hbc | hbc
      · simp [lexLess, lt_trans hab hbc]
      · subst hbc; simp [lexLess, hab]
      · simp [lexLess, hbc, not_lt_of_lt hbc] at h2
    · subst hab
      rcases lt_trichotomy a c with hbc | hbc | hbc
      · simp [lexLess, hbc]
      · subst hbc
        simp only [lexLess, lt_irrefl, if_false] at h1 h2 ⊢
        exact lexLess_trans as bs cs h1 h2
      · simp [lexLess, hbc, not_lt_of_lt hbc] at h2
    · simp [lexLess, hab, not_lt_of_lt hab] at h1

theorem lexLess_total : ∀ (a b : List Char), lexLess a b = false → lexLess b a = false → a = b
  | [], [], _, _ => rfl
  | [], _ :: _, h, _ => by simp [lexLess] at h
  | _ :: _, [], _, h => by simp [lexLess] at h
  | a :: as, b :: bs, h1, h2 => by
    rcases lt_trichotomy a b with hab | hab | hab
    · simp [lexLess, hab] at h1
    · subst hab
      simp only [lexLess, lt_irrefl, if_false] at h1 h2
      rw [lexLess_total as bs h1 h2]
    · simp [lexLess, hab] at h2

theorem strLess_irrefl (a : String) : strLess a a = false := lexLess_irrefl a.data

theorem strLess_asymm {a b : String} (h : strLess a b = true) : strLess b a = false :=
  lexLess_asymm a.data b.data h

theorem strLess_trans {a b c : String} (h1 : strLess a b = true) (h2 : strLess b c = true) :
    strLess a c = true :=
  lexLess_trans a.data b.data c.data h1 h2

theorem strLess_total {a b : String} (h1 : strLess a b = false) (h2 : strLess b a = false) :
    a = b :=
  String.ext (lexLess_total a.data b.data h1 h2)

theorem strLess_ne {a b : String} (h : strLess a b = true) : a ≠ b := by
  intro hab
  subst hab
  rw [strLess_irrefl] at h
  exact Bool.false_ne_true h

/-! ## Lemmas on maps -/

namespace FileMap

theorem find_eq_none_iff (m : FileMap) (k : String) : m.find k = none ↔ k ∉ m.keys := by
  induction m with
  | nil => simp [find, keys]
  | cons e rest ih =>
    obtain ⟨k', v⟩ := e
    by_cases h : k' = k
    · simp [find, keys, h]
    · have h' : ¬ k = k' := fun hk => h hk.symm
      simp only [find, h, if_false, ih, keys, List.map_cons, List.mem_cons, h', false_or]

theorem mem_of_find_eq_some {m : FileMap} {k : String} {v : FileInfo}
    (h : m.find k = some v) : (k, v) ∈ m := by
  induction m with
  | nil => simp [find] at h
  | cons e rest ih =>
    obtain ⟨k', v'⟩ := e
    by_cases hk : k' = k
    · simp only [find, hk, if_true, Option.some.injEq] at h
      simp [hk, h]
    · simp only [find, hk, if_false] at h
      exact List.mem_cons_of_mem _ (ih h)

theorem find_eq_some_of_mem {m : FileMap} (hm : m.Ordered) {k : String} {v : FileInfo}
    (h : (k, v) ∈ m) : m.find k = some v := by
  induction m with
  | nil => simp at h
  | cons e rest ih =>
    obtain ⟨k', v'⟩ := e
    have hp := List.pairwise_cons.mp hm
    rcases List.mem_cons.mp h with heq | hmem
    · cases heq
      simp [find]
    · have hlt : strLess k' k = true := hp.1 (k, v) hmem
      have hne : ¬ k' = k := strLess_ne hlt
      simp only [find, hne, if_false]
      exact ih hp.2 hmem

theorem mem_insert {m : FileMap} {k : String} {v : FileInfo} {x : String × FileInfo}
    (h : x ∈ m.insert k v) : x = (k, v) ∨ x ∈ m := by
  induction m with
  | nil => simpa [insert] using h
  | cons e rest ih =>
    obtain ⟨k', v'⟩ := e
    unfold insert at h
    split at h
    · rcases List.mem_cons.mp h with h1 | h1
      · exact Or.inl h1
      · exact Or.inr h1
    · split at h
      · rcases List.mem_cons.mp h with h1 | h1
        · exact Or.inr (h1 ▸ List.mem_cons_self _ _)
        · rcases ih h1 with h2 | h2
          · exact Or.inl h2
          · exact Or.inr (List.mem_cons_of_mem _ h2)
      · rcases List.mem_cons.mp h with h1 | h1
        · exact Or.inl h1
        · exact Or.inr (List.mem_cons_of_mem _ h1)

theorem insert_ordered {m : FileMap} (hm : m.Ordered) (k : String) (v : FileInfo) :
    (m.insert k v).Ordered := by
  induction m with
  | nil => simp [insert, Ordered]
  | cons e rest ih =>
    obtain ⟨k', v'⟩ := e
    have hp := List.pairwise_cons.mp hm
    unfold insert
    by_cases h1 : strLess k k' = true
    · rw [if_pos h1]
      refine List.pairwise_cons.mpr ⟨?_, hm⟩
      intro x hx
      rcases List.mem_cons.mp hx with hx | hx
      · rw [hx]; exact h1
      · exact strLess_trans h1 (hp.1 x hx)
    · rw [if_neg h1]
      by_cases h2 : strLess k' k = true
      · rw [if_pos h2]
        refine List.pairwise_cons.mpr ⟨?_, ih hp.2⟩
        intro x hx
        rcases mem_insert hx with hx | hx
        · rw [hx]; exact h2
        · exact hp.1 x hx
      · rw [if_neg h2]
        have hk : k = k' := strLess_total (by simpa using h1) (by simpa using h2)
        subst hk
        exact List.pairwise_cons.mpr ⟨hp.1, hp.2⟩

theorem insert_of_all_lt (m : FileMap) (k : String) (v : FileInfo)
    (h : ∀ x ∈ m, strLess x.1 k = true) : m.insert k v = m ++ [(k, v)] := by
  induction m with
  | nil => rfl
  | cons e rest ih =>
    obtain ⟨k', v'⟩ := e
    have h1 : strLess k' k = true := h (k', v') (List.mem_cons_self _ _)
    have h2 : strLess k k' = false := strLess_asymm h1
    have ih2 := ih (fun x hx => h x (List.mem_cons_of_mem _ hx))
    simp [insert, h1, h2, ih2]

theorem foldl_insert_filter (p : String × FileInfo → Prop) [DecidablePred p]
    (rest pre : FileMap) (h : Ordered (pre ++ rest)) :
    rest.foldl (fun files entry => if p entry then FileMap.insert files entry.1 entry.2 else files)
      (pre.filter p) = (pre ++ rest).filter p := by
  induction rest generalizing pre with
  | nil => simp
  | cons e rest ih =>
    have h' : Ordered ((pre ++ [e]) ++ rest) := by simpa using h
    have key := ih (pre ++ [e]) h'
    rw [List.foldl_cons]
    have hall : ∀ x ∈ pre, strLess x.1 e.1 = true := by
      intro x hx
      exact (List.pairwise_append.mp h).2.2 x hx e (List.mem_cons_self _ _)
    by_cases hp : p e
    · rw [if_pos hp, insert_of_all_lt _ _ _ (fun x hx => hall x (List.mem_filter.mp hx).1)]
      have : (pre ++ [e]).filter p = pre.filter p ++ [(e.1, e.2)] := by
        simp [List.filter_append, hp]
      rw [← this, key]
      simp
    · rw [if_neg hp]
      have : (pre ++ [e]).filter p = pre.filter p := by
        simp [List.filter_append, hp]
      rw [← this, key]
      simp

end FileMap

/-! ## Lemmas on the loops of `scanRepository`, `status` and `commit` -/

namespace MiniGit

theorem foldl_push_if {α β : Type} (p : α → Prop) [DecidablePred p] (f : α → β)
    (l : List α) (acc : List β) :
    l.foldl (fun acc x => if p x then acc ++ [f x] else acc) acc =
      acc ++ (l.filter p).map f := by
  induction l generalizing acc with
  | nil => simp
  | cons x xs ih =>
    rw [List.foldl_cons, ih]
    by_cases h : p x
    · simp [h]
    · simp [h]

theorem findNewFiles_eq (S L : FileMap) :
    findNewFiles S L = (S.filter (fun e => L.find e.1 = none)).map Prod.fst := by
  unfold findNewFiles
  rw [foldl_push_if (fun e : String × FileInfo => L.find e.1 = none) Prod.fst S []]
  rfl

theorem findModifiedFiles_eq (S L : FileMap) :
    findModifiedFiles S L = (S.filter (hashDiffers L)).map Prod.fst := by
  unfold findModifiedFiles
  rw [foldl_push_if (fun e : String × FileInfo => hashDiffers L e = true) Prod.fst S []]
  simp

theorem findDeletedFiles_eq (S L : FileMap) :
    findDeletedFiles S L = (L.filter (fun e => S.find e.1 = none)).map Prod.fst := by
  unfold findDeletedFiles
  rw [foldl_push_if (fun e : String × FileInfo => S.find e.1 = none) Prod.fst L []]
  rfl

theorem computeDelta_filename (filename o n : String) :
    (computeDelta filename o n).filename = filename := by
  rw [computeDelta_eq]

theorem foldl_deltas_filenames (L : FileMap) (S : FileMap) (acc : List FileDelta) :
    (S.foldl
      (fun deltas entry =>
        match L.find entry.1 with
        | none => deltas
        | some old =>
          if old.hash != entry.2.hash then
            deltas ++ [computeDelta entry.1 old.content entry.2.content]
          else deltas) acc).map FileDelta.filename =
    S.foldl
      (fun modifiedFiles entry =>
        if hashDiffers L entry then modifiedFiles ++ [entry.1] else modifiedFiles)
      (acc.map FileDelta.filename) := by
  induction S generalizing acc with
  | nil => rfl
  | cons e rest ih =>
    rw [List.foldl_cons, List.foldl_cons, ih]
    congr 1
    unfold hashDiffers
    cases hfind : L.find e.1 with
    | none => simp
    | some old =>
      by_cases hh : (old.hash != e.2.hash) = true
      · simp [hh, computeDelta_filename]
      · simp [hh]

theorem findDeltas_filenames (S L : FileMap) :
    (findDeltas S L).map FileDelta.filename = findModifiedFiles S L :=
  foldl_deltas_filenames L S []

theorem addedFileInfos_eq (S L : FileMap) (hS : S.Ordered) :
    addedFileInfos S L = S.filter (fun e => L.find e.1 = none) := by
  have h := FileMap.foldl_insert_filter (fun e : String × FileInfo => L.find e.1 = none) S []
    (by simpa using hS)
  simpa [addedFileInfos] using h

theorem rootFiles_eq (S : FileMap) (hS : S.Ordered) : rootFiles S = S := by
  have h := FileMap.foldl_insert_filter (fun _ : String × FileInfo => True) S []
    (by simpa using hS)
  simpa [rootFiles] using h

theorem scanEntry_ordered (hashString : String → Nat) (m : FileMap) (hm : m.Ordered)
    (entry : DirEntry) : (scanEntry hashString m entry).Ordered := by
  simp only [scanEntry]
  split
  · split
    · exact hm
    · exact FileMap.insert_ordered hm _ _
  · exact hm

theorem foldl_scanEntry_ordered (hashString : String → Nat) (entries : List DirEntry)
    (m : FileMap) (hm : m.Ordered) : (entries.foldl (scanEntry hashString) m).Ordered := by
  induction entries generalizing m with
  | nil => exact hm
  | cons e es ih => exact ih _ (scanEntry_ordered hashString m hm e)

theorem scanRepository_ordered (hashString : String → Nat) (fs : FileSystem) (st : MiniGit) :
    (scanRepository hashString fs st).stagingArea.Ordered := by
  simp only [scanRepository]
  cases fs st.repoPath with
  | none => exact List.Pairwise.nil
  | some entries => exact foldl_scanEntry_ordered hashString entries [] List.Pairwise.nil

/-! ## Lemmas on `scanRepository`, `status` and `commit` as state transformers -/

theorem scanRepository_frame (hashString : String → Nat) (fs : FileSystem) (st : MiniGit) :
    scanRepository hashString fs st =
      { st with stagingArea := (scanRepository hashString fs st).stagingArea } := by
  simp only [scanRepository]
  cases fs st.repoPath <;> rfl

theorem scanRepository_stagingArea_congr (hashString : String → Nat) (fs : FileSystem)
    (st st' : MiniGit) (h : st.repoPath = st'.repoPath) :
    (scanRepository hashString fs st).stagingArea =
      (scanRepository hashString fs st').stagingArea := by
  simp only [scanRepository, h]
  cases fs st'.repoPath <;> rfl

theorem commit_eq (hashString : String → Nat) (fs : FileSystem) (timestamp message : String)
    (st : MiniGit) (hinit : st.initialized = true) :
    commit hashString fs timestamp message st =
      { repoPath := st.repoPath
        gitDir := st.gitDir
        initialized := true
        head :=
          match st.head with
          | CommitNode.nullptr =>
            CommitNode.node st.nextCommitId message timestamp
              (rootFiles (scanRepository hashString fs st).stagingArea) [] [] []
              CommitNode.nullptr
          | CommitNode.node _ _ _ _ _ _ _ _ =>
            CommitNode.node st.nextCommitId message timestamp
              (addedFileInfos (scanRepository hashString fs st).stagingArea st.lastCommitState)
              (findDeltas (scanRepository hashString fs st).stagingArea st.lastCommitState)
              (findNewFiles (scanRepository hashString fs st).stagingArea st.lastCommitState)
              (findDeletedFiles (scanRepository hashString fs st).stagingArea
                st.lastCommitState)
              st.head
        nextCommitId := st.nextCommitId + 1
        stagingArea := (scanRepository hashString fs st).stagingArea
        lastCommitState := (scanRepository hashString fs st).stagingArea } := by
  have hs := scanRepository_frame hashString fs st
  generalize (scanRepository hashString fs st).stagingArea = S at hs ⊢
  unfold commit
  rw [if_neg (by simp [hinit]), hs]
  cases hh : st.head <;> simp [hinit, hh]

theorem status_eq (hashString : String → Nat) (fs : FileSystem) (st : MiniGit)
    (hinit : st.initialized = true) :
    status hashString fs st =
      ({ st with stagingArea := (scanRepository hashString fs st).stagingArea },
        some
          { newFiles := findNewFiles (scanRepository hashString fs st).stagingArea
              st.lastCommitState
            modifiedFiles := findModifiedFiles (scanRepository hashString fs st).stagingArea
              st.lastCommitState
            deletedFiles := findDeletedFiles (scanRepository hashString fs st).stagingArea
              st.lastCommitState }) := by
  have hs := scanRepository_frame hashString fs st
  generalize (scanRepository hashString fs st).stagingArea = S at hs ⊢
  unfold status
  rw [if_neg (by simp [hinit]), hs]

theorem mem_findNewFiles (S L : FileMap) (k : String) :
    k ∈ findNewFiles S L ↔ k ∈ S.keys ∧ k ∉ L.keys := by
  rw [findNewFiles_eq, ← FileMap.find_eq_none_iff]
  simp only [List.mem_map, List.mem_filter, decide_eq_true_eq, FileMap.keys]
  constructor
  · rintro ⟨e, ⟨he, hn⟩, rfl⟩
    exact ⟨⟨e, he, rfl⟩, hn⟩
  · rintro ⟨⟨e, he, rfl⟩, hn⟩
    exact ⟨e, ⟨he, hn⟩, rfl⟩

theorem mem_findDeletedFiles (S L : FileMap) (k : String) :
    k ∈ findDeletedFiles S L ↔ k ∈ L.keys ∧ k ∉ S.keys := by
  rw [findDeletedFiles_eq, ← FileMap.find_eq_none_iff]
  simp only [List.mem_map, List.mem_filter, decide_eq_true_eq, FileMap.keys]
  constructor
  · rintro ⟨e, ⟨he, hn⟩, rfl⟩
    exact ⟨⟨e, he, rfl⟩, hn⟩
  · rintro ⟨⟨e, he, rfl⟩, hn⟩
    exact ⟨e, ⟨he, hn⟩, rfl⟩

theorem mem_findModifiedFiles (S L : FileMap) (hS : S.Ordered) (k : String) :
    k ∈ findModifiedFiles S L ↔
      ∃ new old, S.find k = some new ∧ L.find k = some old ∧ old.hash ≠ new.hash := by
  rw [findModifiedFiles_eq]
  simp only [List.mem_map, List.mem_filter]
  constructor
  · rintro ⟨⟨k', new⟩, ⟨he, hd⟩, rfl⟩
    unfold hashDiffers at hd
    cases hfind : L.find k' with
    | none => simp [hfind] at hd
    | some old =>
      simp only [hfind, bne_iff_ne, ne_eq] at hd
      exact ⟨new, old, FileMap.find_eq_some_of_mem hS he, rfl, hd⟩
  · rintro ⟨new, old, hs, hl, hne⟩
    refine ⟨(k, new), ⟨FileMap.mem_of_find_eq_some hs, ?_⟩, rfl⟩
    simp [hashDiffers, hl, hne]

theorem modified_iff_hash_ne (S L : FileMap) (k : String) :
    (∃ new old, S.find k = some new ∧ L.find k = some old ∧ old.hash ≠ new.hash) ↔
      k ∈ S.keys ∧ k ∈ L.keys ∧
        (S.find k).map FileInfo.hash ≠ (L.find k).map FileInfo.hash := by
  have hSk := FileMap.find_eq_none_iff S k
  have hLk := FileMap.find_eq_none_iff L k
  cases hs : S.find k with
  | none =>
    have : k ∉ S.keys := hSk.mp hs
    simp [this]
  | some new =>
    have h1 : k ∈ S.keys := by
      by_contra hc
      rw [hSk.mpr hc] at hs
      cases hs
    cases hl : L.find k with
    | none =>
      have : k ∉ L.keys := hLk.mp hl
      simp [this]
    | some old =>
      have h2 : k ∈ L.keys := by
        by_contra hc
        rw [hLk.mpr hc] at hl
        cases hl
      simp only [h1, h2, true_and, Option.map_some', ne_eq, Option.some.injEq,
        exists_and_left, exists_eq_left']
      constructor
      · intro h hc
        exact h hc.symm
      · intro h hc
        exact h hc.symm

theorem changed_iff (S L : FileMap) (k : String) :
    ((k ∈ S.keys ∧ k ∉ L.keys) ∨
      (k ∈ S.keys ∧ k ∈ L.keys ∧
        (S.find k).map FileInfo.hash ≠ (L.find k).map FileInfo.hash) ∨
      (k ∈ L.keys ∧ k ∉ S.keys)) ↔
      (S.find k).map FileInfo.hash ≠ (L.find k).map FileInfo.hash := by
  have hSk := FileMap.find_eq_none_iff S k
  have hLk := FileMap.find_eq_none_iff L k
  by_cases h1 : k ∈ S.keys <;> by_cases h2 : k ∈ L.keys
  · simp [h1, h2]
  · rw [hLk.mpr h2]
    cases hs : S.find k with
    | none => exact absurd (hSk.mp hs) (not_not.mpr h1)
    | some new => simp [h1, h2]
  · rw [hSk.mpr h1]
    cases hl : L.find k with
    | none => exact absurd (hLk.mp hl) (not_not.mpr h2)
    | some old => simp [h1, h2]
  · rw [hSk.mpr h1, hLk.mpr h2]
    simp [h1, h2]

theorem commit_head_root (hashString : String → Nat) (fs : FileSystem)
    (timestamp message : String) (st : MiniGit) (hinit : st.initialized = true)
    (hhead : st.head = CommitNode.nullptr) :
    (commit hashString fs timestamp message st).head =
      CommitNode.node st.nextCommitId message timestamp
        (scanRepository hashString fs st).stagingArea [] [] [] CommitNode.nullptr := by
  rw [commit_eq hashString fs timestamp message st hinit]
  simp only [hhead]
  rw [rootFiles_eq _ (scanRepository_ordered hashString fs st)]

theorem commit_head_nonroot (hashString : String → Nat) (fs : FileSystem)
    (timestamp message : String) (st : MiniGit) (hinit : st.initialized = true)
    (hhead : st.head ≠ CommitNode.nullptr) :
    (commit hashString fs timestamp message st).head =
      CommitNode.node st.nextCommitId message timestamp
        ((scanRepository hashString fs st).stagingArea.filter
          (fun e => st.lastCommitState.find e.1 = none))
        (findDeltas (scanRepository hashString fs st).stagingArea st.lastCommitState)
        (findNewFiles (scanRepository hashString fs st).stagingArea st.lastCommitState)
        (findDeletedFiles (scanRepository hashString fs st).stagingArea st.lastCommitState)
        st.head := by
  rw [commit_eq hashString fs timestamp message st hinit]
  rw [addedFileInfos_eq _ _ (scanRepository_ordered hashString fs st)]
  cases hh : st.head with
  | nullptr => exact absurd hh hhead
  | node _ _ _ _ _ _ _ _ => rfl

/-- C2. For every commit made on an initialized repository whose `head` is not null, from
the scanned snapshot `S` against the previous `lastCommitState` `L`: the new head's
`addedFiles` are the keys of `S` that are not keys of `L`, its `deletedFiles` the keys of
`L` that are not keys of `S`, the filenames of its `deltas` the keys of both whose hashes
differ; the three lists are pairwise disjoint, and a filename is in one of them exactly
when its presence or its hash differs between `L` and `S`. -/
theorem commit_nonroot_partition (hashString : String → Nat) (fs : FileSystem)
    (timestamp message : String) (st : MiniGit) (hinit : st.initialized = true)
    (hhead : st.head ≠ CommitNode.nullptr) :
    let S := (scanRepository hashString fs st).stagingArea
    let L := st.lastCommitState
    let c := (commit hashString fs timestamp message st).head
    c ≠ CommitNode.nullptr ∧ c.parent = st.head ∧
    (∀ k, k ∈ c.addedFiles ↔ k ∈ S.keys ∧ k ∉ L.keys) ∧
    (∀ k, k ∈ c.deletedFiles ↔ k ∈ L.keys ∧ k ∉ S.keys) ∧
    (∀ k, k ∈ c.deltaFiles ↔
      k ∈ S.keys ∧ k ∈ L.keys ∧
        (S.find k).map FileInfo.hash ≠ (L.find k).map FileInfo.hash) ∧
    c.addedFiles.Disjoint c.deltaFiles ∧
    c.addedFiles.Disjoint c.deletedFiles ∧
    c.deltaFiles.Disjoint c.deletedFiles ∧
    (∀ k, (k ∈ c.addedFiles ∨ k ∈ c.deltaFiles ∨ k ∈ c.deletedFiles) ↔
      (S.find k).map FileInfo.hash ≠ (L.find k).map FileInfo.hash) := by
  intro S L c
  have hc : c = _ := commit_head_nonroot hashString fs timestamp message st hinit hhead
  have hS : S.Ordered := scanRepository_ordered hashString fs st
  have hA : ∀ k, k ∈ c.addedFiles ↔ k ∈ S.keys ∧ k ∉ L.keys := by
    intro k
    rw [hc]
    exact mem_findNewFiles S L k
  have hD : ∀ k, k ∈ c.deletedFiles ↔ k ∈ L.keys ∧ k ∉ S.keys := by
    intro k
    rw [hc]
    exact mem_findDeletedFiles S L k
  have hM : ∀ k, k ∈ c.deltaFiles ↔
      k ∈ S.keys ∧ k ∈ L.keys ∧
        (S.find k).map FileInfo.hash ≠ (L.find k).map FileInfo.hash := by
    intro k
    rw [hc]
    show k ∈ (findDeltas S L).map FileDelta.filename ↔ _
    rw [findDeltas_filenames, mem_findModifiedFiles S L hS k]
    exact modified_iff_hash_ne S L k
  refine ⟨?_, ?_, hA, hD, hM, ?_, ?_, ?_, ?_⟩
  · rw [hc]
    exact CommitNode.noConfusion
  · rw [hc]
    rfl
  · intro k h1 h2
    exact ((hA k).mp h1).2 ((hM k).mp h2).2.1
  · intro k h1 h2
    exact ((hA k).mp h1).2 ((hD k).mp h2).1
  · intro k h1 h2
    exact ((hD k).mp h2).2 ((hM k).mp h1).1
  · intro k
    rw [hA k, hM k, hD k]
    exact changed_iff S L k

/-- C4. For every commit made on an initialized repository whose `head` is null, the new
head is a node without parent whose `files` map is the scanned staging snapshot, entry
for entry, and whose `deltas`, `addedFiles` and `deletedFiles` are empty. -/
theorem commit_root (hashString : String → Nat) (fs : FileSystem)
    (timestamp message : String) (st : MiniGit) (hinit : st.initialized = true)
    (hhead : st.head = CommitNode.nullptr) :
    (commit hashString fs timestamp message st).head =
      CommitNode.node st.nextCommitId message timestamp
        (scanRepository hashString fs st).stagingArea [] [] [] CommitNode.nullptr ∧
    (commit hashString fs timestamp message st).head.files.keys =
      (scanRepository hashString fs st).stagingArea.keys := by
  have h := commit_head_root hashString fs timestamp message st hinit hhead
  refine ⟨h, ?_⟩
  rw [h]
  rfl

theorem filter_ordered (m : FileMap) (hm : m.Ordered) (p : String × FileInfo → Bool) :
    FileMap.Ordered (m.filter p) :=
  List.Pairwise.sublist (List.filter_sublist m) hm

/-- C5. For every commit made on an initialized repository whose `head` is not null, the
keys of the new head's `files` map are its `addedFiles`, every added file is mapped to
the `FileInfo` the staging snapshot holds for it, and no added file has a delta. -/
theorem commit_nonroot_files (hashString : String → Nat) (fs : FileSystem)
    (timestamp message : String) (st : MiniGit) (hinit : st.initialized = true)
    (hhead : st.head ≠ CommitNode.nullptr) :
    let S := (scanRepository hashString fs st).stagingArea
    let c := (commit hashString fs timestamp message st).head
    c ≠ CommitNode.nullptr ∧
    c.files.keys = c.addedFiles ∧
    (∀ k, k ∈ c.addedFiles →
      ∃ info, c.files.find k = some info ∧ S.find k = some info) ∧
    (∀ k, k ∈ c.addedFiles → k ∉ c.deltaFiles) := by
  intro S c
  have hc : c = _ := commit_head_nonroot hashString fs timestamp message st hinit hhead
  have hS : S.Ordered := scanRepository_ordered hashString fs st
  refine ⟨by rw [hc]; exact CommitNode.noConfusion, ?_, ?_, ?_⟩
  · rw [hc]
    show FileMap.keys _ = findNewFiles S st.lastCommitState
    rw [findNewFiles_eq]
    rfl
  · intro k hk
    rw [hc] at hk ⊢
    change k ∈ findNewFiles S st.lastCommitState at hk
    rw [findNewFiles_eq] at hk
    obtain ⟨⟨k', info⟩, he, rfl⟩ := List.mem_map.mp hk
    refine ⟨info, ?_, ?_⟩
    · exact FileMap.find_eq_some_of_mem (filter_ordered S hS _) he
    · exact FileMap.find_eq_some_of_mem hS (List.mem_filter.mp he).1
  · intro k h1 h2
    rw [hc] at h1 h2
    change k ∈ findNewFiles S st.lastCommitState at h1
    change k ∈ (findDeltas S st.lastCommitState).map FileDelta.filename at h2
    rw [findDeltas_filenames, mem_findModifiedFiles S _ hS k] at h2
    obtain ⟨_, old, _, hl, _⟩ := h2
    have hk := ((mem_findNewFiles S _ k).mp h1).2
    rw [(FileMap.find_eq_none_iff _ k).mpr hk] at hl
    cases hl

/-- C6. For every initialized repository state and directory content, `status` reports
a filename as new iff it is a key of the scanned snapshot and not of `lastCommitState`,
as modified iff it is a key of both and the two hashes differ, as deleted iff it is a key
of `lastCommitState` and not of the snapshot; the three lists are pairwise disjoint. -/
theorem status_classifies (hashString : String → Nat) (fs : FileSystem) (st : MiniGit)
    (hinit : st.initialized = true) :
    let S := (scanRepository hashString fs st).stagingArea
    let L := st.lastCommitState
    ∃ r, (status hashString fs st).2 = some r ∧
      (∀ k, k ∈ r.newFiles ↔ k ∈ S.keys ∧ k ∉ L.keys) ∧
      (∀ k, k ∈ r.modifiedFiles ↔
        k ∈ S.keys ∧ k ∈ L.keys ∧
          (S.find k).map FileInfo.hash ≠ (L.find k).map FileInfo.hash) ∧
      (∀ k, k ∈ r.deletedFiles ↔ k ∈ L.keys ∧ k ∉ S.keys) ∧
      r.newFiles.Disjoint r.modifiedFiles ∧
      r.newFiles.Disjoint r.deletedFiles ∧
      r.modifiedFiles.Disjoint r.deletedFiles := by
  intro S L
  have hS : S.Ordered := scanRepository_ordered hashString fs st
  have hM : ∀ k, k ∈ findModifiedFiles S L ↔
      k ∈ S.keys ∧ k ∈ L.keys ∧
        (S.find k).map FileInfo.hash ≠ (L.find k).map FileInfo.hash := by
    intro k
    rw [mem_findModifiedFiles S L hS k]
    exact modified_iff_hash_ne S L k
  refine ⟨_, by rw [status_eq hashString fs st hinit], mem_findNewFiles S L, hM,
    mem_findDeletedFiles S L, ?_, ?_, ?_⟩
  · intro k h1 h2
    exact ((mem_findNewFiles S L k).mp h1).2 ((hM k).mp h2).2.1
  · intro k h1 h2
    exact ((mem_findNewFiles S L k).mp h1).2 ((mem_findDeletedFiles S L k).mp h2).1
  · intro k h1 h2
    exact ((mem_findDeletedFiles S L k).mp h2).2 ((hM k).mp h1).1

/-- C7. For every initialized repository state and directory content, a second `status`
call on the same directory content reports the same three lists as the first and leaves
the repository state as the first call left it. -/
theorem status_idempotent (hashString : String → Nat) (fs : FileSystem) (st : MiniGit)
    (hinit : st.initialized = true) :
    (status hashString fs st).2 ≠ none ∧
    (status hashString fs (status hashString fs st).1).2 = (status hashString fs st).2 ∧
    (status hashString fs (status hashString fs st).1).1 = (status hashString fs st).1 := by
  have h1 := status_eq hashString fs st hinit
  have hinit2 : (status hashString fs st).1.initialized = true := by rw [h1]; exact hinit
  have h2 := status_eq hashString fs (status hashString fs st).1 hinit2
  have hscan : (scanRepository hashString fs (status hashString fs st).1).stagingArea =
      (scanRepository hashString fs st).stagingArea := by
    apply scanRepository_stagingArea_congr
    rw [h1]
  have hL : (status hashString fs st).1.lastCommitState = st.lastCommitState := by rw [h1]
  refine ⟨by rw [h1]; simp, ?_, ?_⟩
  · rw [h2, hscan, hL, h1]
  · rw [h2, hscan]
    rw [h1]

/-- C8. For every repository state and directory content, `status` leaves every field
of the repository other than `stagingArea` unchanged: `lastCommitState`, `head` (a value
that holds the whole chain of commit records), `nextCommitId`, `initialized`, `repoPath`
and `gitDir`. -/
theorem status_frame (hashString : String → Nat) (fs : FileSystem) (st : MiniGit) :
    (status hashString fs st).1.lastCommitState = st.lastCommitState ∧
    (status hashString fs st).1.head = st.head ∧
    (status hashString fs st).1.nextCommitId = st.nextCommitId ∧
    (status hashString fs st).1.initialized = st.initialized ∧
    (status hashString fs st).1.repoPath = st.repoPath ∧
    (status hashString fs st).1.gitDir = st.gitDir := by
  cases hinit : st.initialized with
  | false => simp [status, hinit]
  | true =>
    rw [status_eq hashString fs st hinit]
    simp [hinit]

theorem findNewFiles_self (S : FileMap) : findNewFiles S S = [] := by
  rw [findNewFiles_eq, List.map_eq_nil_iff, List.filter_eq_nil_iff]
  intro e he
  have hk : e.1 ∈ S.keys := List.mem_map_of_mem Prod.fst he
  have : S.find e.1 ≠ none := fun h => (FileMap.find_eq_none_iff S e.1).mp h hk
  simpa using this

theorem findDeletedFiles_self (S : FileMap) : findDeletedFiles S S = [] := by
  rw [findDeletedFiles_eq, List.map_eq_nil_iff, List.filter_eq_nil_iff]
  intro e he
  have hk : e.1 ∈ S.keys := List.mem_map_of_mem Prod.fst he
  have : S.find e.1 ≠ none := fun h => (FileMap.find_eq_none_iff S e.1).mp h hk
  simpa using this

theorem findModifiedFiles_self (S : FileMap) (hS : S.Ordered) : findModifiedFiles S S = [] := by
  rw [findModifiedFiles_eq, List.map_eq_nil_iff, List.filter_eq_nil_iff]
  intro e he
  have hf : S.find e.1 = some e.2 := FileMap.find_eq_some_of_mem hS he
  simp [hashDiffers, hf]

/-- C9. For every initialized repository state and directory content, after `commit`
the field `lastCommitState` is the snapshot scanned for that commit, and a `status` call
made right afterwards on the same directory content reports no new, no modified and no
deleted file; so no file of the commit's `deletedFiles` is in any of the three lists. -/
theorem status_after_commit (hashString : String → Nat) (fs : FileSystem)
    (timestamp message : String) (st : MiniGit) (hinit : st.initialized = true) :
    (commit hashString fs timestamp message st).lastCommitState =
      (scanRepository hashString fs st).stagingArea ∧
    (status hashString fs (commit hashString fs timestamp message st)).2 =
      some { newFiles := [], modifiedFiles := [], deletedFiles := [] } ∧
    (∀ r, (status hashString fs (commit hashString fs timestamp message st)).2 = some r →
      ∀ k, k ∈ (commit hashString fs timestamp message st).head.deletedFiles →
        k ∉ r.newFiles ∧ k ∉ r.modifiedFiles ∧ k ∉ r.deletedFiles) := by
  have hc := commit_eq hashString fs timestamp message st hinit
  have hinit2 : (commit hashString fs timestamp message st).initialized = true := by
    rw [hc]
  have hL : (commit hashString fs timestamp message st).lastCommitState =
      (scanRepository hashString fs st).stagingArea := by rw [hc]
  have hscan : (scanRepository hashString fs
      (commit hashString fs timestamp message st)).stagingArea =
      (scanRepository hashString fs st).stagingArea := by
    apply scanRepository_stagingArea_congr
    rw [hc]
  have hst : (status hashString fs (commit hashString fs timestamp message st)).2 =
      some { newFiles := [], modifiedFiles := [], deletedFiles := [] } := by
    rw [status_eq hashString fs _ hinit2, hscan, hL, findNewFiles_self,
      findDeletedFiles_self,
      findModifiedFiles_self _ (scanRepository_ordered hashString fs st)]
  refine ⟨hL, hst, ?_⟩
  intro r hr k _
  rw [hst] at hr
  cases hr
  simp

/-! ## Sequences of commits -/

theorem commitAll_append (hashString : String → Nat) (calls : List CommitCall)
    (call : CommitCall) (st : MiniGit) :
    commitAll hashString (calls ++ [call]) st =
      commit hashString call.fs call.timestamp call.message
        (commitAll hashString calls st) := by
  simp [commitAll, List.foldl_append]

theorem commit_initialized (hashString : String → Nat) (fs : FileSystem)
    (timestamp message : String) (st : MiniGit) (hinit : st.initialized = true) :
    (commit hashString fs timestamp message st).initialized = true := by
  rw [commit_eq hashString fs timestamp message st hinit]

theorem commit_nextCommitId (hashString : String → Nat) (fs : FileSystem)
    (timestamp message : String) (st : MiniGit) (hinit : st.initialized = true) :
    (commit hashString fs timestamp message st).nextCommitId = st.nextCommitId + 1 := by
  rw [commit_eq hashString fs timestamp message st hinit]

theorem commit_head_fields (hashString : String → Nat) (fs : FileSystem)
    (timestamp message : String) (st : MiniGit) (hinit : st.initialized = true) :
    (commit hashString fs timestamp message st).head ≠ CommitNode.nullptr ∧
    (commit hashString fs timestamp message st).head.commitId = st.nextCommitId ∧
    (commit hashString fs timestamp message st).head.message = message ∧
    (commit hashString fs timestamp message st).head.timestamp = timestamp ∧
    (commit hashString fs timestamp message st).head.parent = st.head ∧
    (commit hashString fs timestamp message st).head.ids =
      st.nextCommitId :: st.head.ids := by
  rw [commit_eq hashString fs timestamp message st hinit]
  cases hh : st.head <;>
    simp [CommitNode.commitId, CommitNode.message, CommitNode.timestamp, CommitNode.parent,
      CommitNode.ids]

theorem commitAll_counters (hashString : String → Nat) (calls : List CommitCall)
    (st : MiniGit) (hinit : st.initialized = true) :
    (commitAll hashString calls st).initialized = true ∧
    (commitAll hashString calls st).nextCommitId = st.nextCommitId + (calls.length : Int) ∧
    (commitAll hashString calls st).head.ids =
      (List.iota calls.length).map (fun k => st.nextCommitId + (k : Int) - 1) ++
        st.head.ids := by
  induction calls using List.reverseRecOn with
  | nil => simp [commitAll, List.iota, hinit]
  | append_singleton calls call ih =>
    obtain ⟨h1, h2, h3⟩ := ih
    rw [commitAll_append]
    refine ⟨commit_initialized _ _ _ _ _ h1, ?_, ?_⟩
    · rw [commit_nextCommitId _ _ _ _ _ h1, h2]
      simp only [List.length_append, List.length_singleton, Nat.cast_add, Nat.cast_one]
      ring
    · rw [(commit_head_fields _ _ _ _ _ h1).2.2.2.2.2, h2, h3]
      simp only [List.length_append, List.length_singleton, List.iota, List.map_cons,
        List.cons_append, Nat.cast_add, Nat.cast_one]
      congr 1
      push_cast
      ring

/-- C3. For every sequence of `n` commits on a freshly constructed repository on which
`init` returned, whatever the disk holds at each commit: the ids along the parent chain
from `head` are `n, n-1, ..., 1`, `nextCommitId` is `n + 1`, `head` is null iff `n = 0`,
and the `k`-th commit produced a node with `commitId = k` whose parent is the head the
commits before it had left. -/
theorem commitAll_ids (hashString : String → Nat) (path : String)
    (calls : List CommitCall) :
    let st := commitAll hashString calls (afterInit path new)
    st.head.ids = (List.iota calls.length).map (fun k => (k : Int)) ∧
    st.nextCommitId = (calls.length : Int) + 1 ∧
    (st.head = CommitNode.nullptr ↔ calls.length = 0) ∧
    ∀ k (hk : k < calls.length),
      let c := (commitAll hashString (calls.take (k + 1)) (afterInit path new)).head
      c ≠ CommitNode.nullptr ∧ c.commitId = (k : Int) + 1 ∧
      c.message = calls[k].message ∧
      c.parent = (commitAll hashString (calls.take k) (afterInit path new)).head := by
  intro st
  have hinit : (afterInit path new).initialized = true := rfl
  have hall := commitAll_counters hashString calls (afterInit path new) hinit
  have hids : st.head.ids = (List.iota calls.length).map (fun k => (k : Int)) := by
    rw [hall.2.2]
    simp [afterInit, new, CommitNode.ids]
  refine ⟨hids, ?_, ?_, ?_⟩
  · rw [hall.2.1]
    simp [afterInit, new]
    ring
  · constructor
    · intro h
      rw [h] at hids
      cases hn : calls.length with
      | zero => rfl
      | succ n => rw [hn] at hids; simp [CommitNode.ids, List.iota] at hids
    · intro h
      have : calls = [] := List.length_eq_zero.mp h
      rw [show st = commitAll hashString calls (afterInit path new) from rfl, this]
      rfl
  · intro k hk c
    have htake : calls.take (k + 1) = calls.take k ++ [calls[k]] := by
      rw [List.take_succ, List.getElem?_eq_getElem hk]
      rfl
    have hprev := commitAll_counters hashString (calls.take k) (afterInit path new) hinit
    have hc : c = (commit hashString calls[k].fs calls[k].timestamp calls[k].message
        (commitAll hashString (calls.take k) (afterInit path new))).head := by
      show (commitAll hashString (calls.take (k + 1)) (afterInit path new)).head = _
      rw [htake, commitAll_append]
    have hf := commit_head_fields hashString calls[k].fs calls[k].timestamp
      calls[k].message _ hprev.1
    rw [hc]
    refine ⟨hf.1, ?_, hf.2.2.1, hf.2.2.2.2.1⟩
    rw [hf.2.1, hprev.2.1]
    have hlen : (calls.take k).length = k := by
      rw [List.length_take]
      exact Nat.min_eq_left (Nat.le_of_lt hk)
    rw [hlen]
    simp [afterInit, new]
    ring

end MiniGit

/-! ## The scenarios of the specification -/

namespace MiniGit

/-- C2 at a concrete commit: on the state of Scenario D, with `a.txt` deleted, `b.txt`
edited and `c.txt` new, the commit records one file in each of the three lists. -/
theorem commit_nonroot_partition_witness :
    (scenarioD sampleHash).initialized = true ∧
    (scenarioD sampleHash).head ≠ CommitNode.nullptr ∧
    (let S := (scanRepository sampleHash diskF (scenarioD sampleHash)).stagingArea
     let L := (scenarioD sampleHash).lastCommitState
     let c := (commit sampleHash diskF "t5" "c5" (scenarioD sampleHash)).head
     c ≠ CommitNode.nullptr ∧ c.parent = (scenarioD sampleHash).head ∧
     (∀ k, k ∈ c.addedFiles ↔ k ∈ S.keys ∧ k ∉ L.keys) ∧
     (∀ k, k ∈ c.deletedFiles ↔ k ∈ L.keys ∧ k ∉ S.keys) ∧
     (∀ k, k ∈ c.deltaFiles ↔
       k ∈ S.keys ∧ k ∈ L.keys ∧
         (S.find k).map FileInfo.hash ≠ (L.find k).map FileInfo.hash) ∧
     c.addedFiles.Disjoint c.deltaFiles ∧
     c.addedFiles.Disjoint c.deletedFiles ∧
     c.deltaFiles.Disjoint c.deletedFiles ∧
     (∀ k, (k ∈ c.addedFiles ∨ k ∈ c.deltaFiles ∨ k ∈ c.deletedFiles) ↔
       (S.find k).map FileInfo.hash ≠ (L.find k).map FileInfo.hash)) ∧
    (commit sampleHash diskF "t5" "c5" (scenarioD sampleHash)).head.addedFiles = ["c.txt"] ∧
    (commit sampleHash diskF "t5" "c5" (scenarioD sampleHash)).head.deltaFiles = ["b.txt"] ∧
    (commit sampleHash diskF "t5" "c5" (scenarioD sampleHash)).head.deletedFiles =
      ["a.txt"] :=
  ⟨by decide, by decide,
    commit_nonroot_partition sampleHash diskF "t5" "c5" (scenarioD sampleHash) (by decide)
      (by decide),
    by decide, by decide, by decide⟩

/-- C3, Scenario C: after the two commits the chain of ids is `2, 1`, and the second
commit has id 2. -/
theorem commitAll_ids_scenarioC :
    (commitAll sampleHash callsC (afterInit "repo" new)).head.ids = [2, 1] ∧
    (scenarioC sampleHash).head.commitId = 2 :=
  ⟨(commitAll_ids sampleHash "repo" callsC).1, by decide⟩

/-- C4, Scenario A: on an empty directory the root commit has an empty `files` map. -/
theorem commit_root_scenarioA :
    (afterInit "repo" new).initialized = true ∧
    (afterInit "repo" new).head = CommitNode.nullptr ∧
    (scenarioA sampleHash).head =
      CommitNode.node 1 "initial" "t1" [] [] [] [] CommitNode.nullptr :=
  ⟨rfl, rfl,
    (commit_root sampleHash diskA "t1" "initial" (afterInit "repo" new)
      rfl rfl).1.trans (by decide)⟩

/-- C5, Scenario D: the commit after `b.txt = "z"` was added has `addedFiles = ["b.txt"]`
and stores the content `"z"` for it. -/
theorem commit_nonroot_files_scenarioD :
    (scenarioC sampleHash).initialized = true ∧
    (scenarioC sampleHash).head ≠ CommitNode.nullptr ∧
    (let S := (scanRepository sampleHash diskD (scenarioC sampleHash)).stagingArea
     let c := (commit sampleHash diskD "t3" "c3" (scenarioC sampleHash)).head
     c ≠ CommitNode.nullptr ∧
     c.files.keys = c.addedFiles ∧
     (∀ k, k ∈ c.addedFiles →
       ∃ info, c.files.find k = some info ∧ S.find k = some info) ∧
     (∀ k, k ∈ c.addedFiles → k ∉ c.deltaFiles)) ∧
    (scenarioD sampleHash).head.addedFiles = ["b.txt"] ∧
    ((scenarioD sampleHash).head.files.find "b.txt").map FileInfo.content = some "z" :=
  ⟨by decide, by decide,
    commit_nonroot_files sampleHash diskD "t3" "c3" (scenarioC sampleHash) (by decide)
      (by decide),
    by decide, by decide⟩

/-- C6, Scenario B: after `a.txt = "x"` was committed and edited to `"y"`, `status`
reports `a.txt` as modified and nothing else. -/
theorem status_classifies_scenarioB :
    (scenarioB sampleHash).initialized = true ∧ sampleHash "x" ≠ sampleHash "y" ∧
    (let S := (scanRepository sampleHash diskC (scenarioB sampleHash)).stagingArea
     let L := (scenarioB sampleHash).lastCommitState
     ∃ r, (status sampleHash diskC (scenarioB sampleHash)).2 = some r ∧
       (∀ k, k ∈ r.newFiles ↔ k ∈ S.keys ∧ k ∉ L.keys) ∧
       (∀ k, k ∈ r.modifiedFiles ↔
         k ∈ S.keys ∧ k ∈ L.keys ∧
           (S.find k).map FileInfo.hash ≠ (L.find k).map FileInfo.hash) ∧
       (∀ k, k ∈ r.deletedFiles ↔ k ∈ L.keys ∧ k ∉ S.keys) ∧
       r.newFiles.Disjoint r.modifiedFiles ∧
       r.newFiles.Disjoint r.deletedFiles ∧
       r.modifiedFiles.Disjoint r.deletedFiles) ∧
    (status sampleHash diskC (scenarioB sampleHash)).2 =
      some { newFiles := [], modifiedFiles := ["a.txt"], deletedFiles := [] } :=
  ⟨by decide, by decide, status_classifies sampleHash diskC (scenarioB sampleHash) (by decide),
    by decide⟩

/-- C7 on the state and disk of Scenario B. -/
theorem status_idempotent_witness :
    (scenarioB sampleHash).initialized = true ∧
    (status sampleHash diskC (scenarioB sampleHash)).2 ≠ none ∧
    (status sampleHash diskC (status sampleHash diskC (scenarioB sampleHash)).1).2 =
      (status sampleHash diskC (scenarioB sampleHash)).2 ∧
    (status sampleHash diskC (status sampleHash diskC (scenarioB sampleHash)).1).1 =
      (status sampleHash diskC (scenarioB sampleHash)).1 :=
  ⟨by decide, status_idempotent sampleHash diskC (scenarioB sampleHash) (by decide)⟩

/-- C9, Scenario E: the commit made after `a.txt` was deleted records it in
`deletedFiles`, and the `status` that follows reports nothing. -/
theorem status_after_commit_scenarioE :
    (scenarioD sampleHash).initialized = true ∧
    (scenarioE sampleHash).head.deletedFiles = ["a.txt"] ∧
    (commit sampleHash diskE "t4" "c4" (scenarioD sampleHash)).lastCommitState =
      (scanRepository sampleHash diskE (scenarioD sampleHash)).stagingArea ∧
    (status sampleHash diskE (scenarioE sampleHash)).2 =
      some { newFiles := [], modifiedFiles := [], deletedFiles := [] } :=
  ⟨by decide, by decide,
    (status_after_commit sampleHash diskE "t4" "c4" (scenarioD sampleHash) (by decide)).1,
    (status_after_commit sampleHash diskE "t4" "c4" (scenarioD sampleHash) (by decide)).2.1⟩

end MiniGit

/-! ## The scenarios for an arbitrary hash function -/

namespace MiniGit

theorem scan_diskA (hashString : String → Nat) (st : MiniGit) (h : st.repoPath = "repo") :
    (scanRepository hashString diskA st).stagingArea = [] := by
  simp [scanRepository, h, diskA, diskWith, metadataDir, scanEntry]

theorem scan_diskB (hashString : String → Nat) (st : MiniGit) (h : st.repoPath = "repo") :
    (scanRepository hashString diskB st).stagingArea =
      [("a.txt", FileInfo.make "a.txt" (hashString "x") "x")] := by
  simp [scanRepository, h, diskB, diskWith, metadataDir, regularFile, scanEntry,
    readFileContent, FileMap.insert]
  decide

theorem scan_diskC (hashString : String → Nat) (st : MiniGit) (h : st.repoPath = "repo") :
    (scanRepository hashString diskC st).stagingArea =
      [("a.txt", FileInfo.make "a.txt" (hashString "y") "y")] := by
  simp [scanRepository, h, diskC, diskWith, metadataDir, regularFile, scanEntry,
    readFileContent, FileMap.insert]
  decide

theorem scan_diskD (hashString : String → Nat) (st : MiniGit) (h : st.repoPath = "repo") :
    (scanRepository hashString diskD st).stagingArea =
      [("a.txt", FileInfo.make "a.txt" (hashString "y") "y"),
       ("b.txt", FileInfo.make "b.txt" (hashString "z") "z")] := by
  have h1 : strContains "a.txt" ".minigit" = false := by decide
  have h2 : strContains "b.txt" ".minigit" = false := by decide
  have h3 : strLess "a.txt" "b.txt" = true := by decide
  simp [scanRepository, h, diskD, diskWith, metadataDir, regularFile, scanEntry,
    readFileContent, FileMap.insert, h1, h2, h3]

theorem scan_diskE (hashString : String → Nat) (st : MiniGit) (h : st.repoPath = "repo") :
    (scanRepository hashString diskE st).stagingArea =
      [("b.txt", FileInfo.make "b.txt" (hashString "z") "z")] := by
  have h2 : strContains "b.txt" ".minigit" = false := by decide
  simp [scanRepository, h, diskE, diskWith, metadataDir, regularFile, scanEntry,
    readFileContent, FileMap.insert, h2]

/-- Scenario A for any hash function: the root commit on an empty directory. -/
theorem scenarioA_head (hashString : String → Nat) :
    (scenarioA hashString).head =
      CommitNode.node 1 "initial" "t1" [] [] [] [] CommitNode.nullptr := by
  unfold scenarioA
  rw [commit_eq _ _ _ _ _ rfl, scan_diskA _ _ rfl]
  rfl

/-- The state of Scenario B before `a.txt` is edited, for any hash function. -/
theorem scenarioB_fields (hashString : String → Nat) :
    (scenarioB hashString).repoPath = "repo" ∧
    (scenarioB hashString).initialized = true ∧
    (scenarioB hashString).nextCommitId = 2 ∧
    (scenarioB hashString).lastCommitState =
      [("a.txt", FileInfo.make "a.txt" (hashString "x") "x")] ∧
    (scenarioB hashString).head =
      CommitNode.node 1 "c1" "t1" [("a.txt", FileInfo.make "a.txt" (hashString "x") "x")]
        [] [] [] CommitNode.nullptr := by
  unfold scenarioB
  rw [commit_eq _ _ _ _ _ rfl, scan_diskB _ _ rfl]
  exact ⟨rfl, rfl, rfl, rfl, rfl⟩

/-- Scenario B for any hash function that separates `"x"` and `"y"`: `status` reports
`a.txt` as modified and nothing else. -/
theorem scenarioB_status (hashString : String → Nat) (h : hashString "x" ≠ hashString "y") :
    (status hashString diskC (scenarioB hashString)).2 =
      some { newFiles := [], modifiedFiles := ["a.txt"], deletedFiles := [] } := by
  obtain ⟨h1, h2, _, h4, _⟩ := scenarioB_fields hashString
  rw [status_eq _ _ _ h2, scan_diskC _ _ h1, h4]
  simp [findNewFiles, findModifiedFiles, findDeletedFiles, FileMap.find, hashDiffers,
    FileInfo.make, h]

/-- Scenario C for any hash function that separates `"x"` and `"y"`: the second commit
has id 2 and stores the delta of `a.txt`. -/
theorem scenarioC_head (hashString : String → Nat) (h : hashString "x" ≠ hashString "y") :
    (scenarioC hashString).head =
      CommitNode.node 2 "c2" "t2" []
        [{ filename := "a.txt", addedLines := ["y"], deletedLines := ["x"],
           modifiedLineNumbers := [0] }]
        [] [] (scenarioB hashString).head := by
  obtain ⟨h1, h2, h3, h4, h5⟩ := scenarioB_fields hashString
  have hd : computeDelta "a.txt" "x" "y" =
      { filename := "a.txt", addedLines := ["y"], deletedLines := ["x"],
        modifiedLineNumbers := [0] } := by decide
  unfold scenarioC
  rw [commit_eq _ _ _ _ _ h2, scan_diskC _ _ h1, h3, h4, h5]
  simp [addedFileInfos, findDeltas, findNewFiles, findDeletedFiles, FileMap.find,
    FileInfo.make, h, hd]

theorem scenarioC_fields (hashString : String → Nat) :
    (scenarioC hashString).repoPath = "repo" ∧
    (scenarioC hashString).initialized = true ∧
    (scenarioC hashString).nextCommitId = 3 ∧
    (scenarioC hashString).head ≠ CommitNode.nullptr ∧
    (scenarioC hashString).lastCommitState =
      [("a.txt", FileInfo.make "a.txt" (hashString "y") "y")] := by
  obtain ⟨h1, h2, h3, _, h5⟩ := scenarioB_fields hashString
  unfold scenarioC
  rw [commit_eq _ _ _ _ _ h2, scan_diskC _ _ h1, h3, h5]
  exact ⟨h1, rfl, rfl, CommitNode.noConfusion, rfl⟩

/-- Scenario D for any hash function: the third commit records `b.txt` as added, with
its full content, and stores no delta. -/
theorem scenarioD_head (hashString : String → Nat) :
    (scenarioD hashString).head =
      CommitNode.node 3 "c3" "t3" [("b.txt", FileInfo.make "b.txt" (hashString "z") "z")]
        [] ["b.txt"] [] (scenarioC hashString).head := by
  obtain ⟨h1, h2, h3, h4, h5⟩ := scenarioC_fields hashString
  unfold scenarioD
  rw [commit_head_nonroot _ _ _ _ _ h2 h4, scan_diskD _ _ h1, h3, h5]
  simp [findDeltas, findNewFiles, findDeletedFiles, FileMap.find, FileInfo.make]

theorem scenarioD_fields (hashString : String → Nat) :
    (scenarioD hashString).repoPath = "repo" ∧
    (scenarioD hashString).initialized = true ∧
    (scenarioD hashString).nextCommitId = 4 ∧
    (scenarioD hashString).head ≠ CommitNode.nullptr ∧
    (scenarioD hashString).lastCommitState =
      [("a.txt", FileInfo.make "a.txt" (hashString "y") "y"),
       ("b.txt", FileInfo.make "b.txt" (hashString "z") "z")] := by
  obtain ⟨h1, h2, h3, _, _⟩ := scenarioC_fields hashString
  refine ⟨?_, ?_, ?_, ?_, ?_⟩
  · unfold scenarioD; rw [commit_eq _ _ _ _ _ h2]; exact h1
  · unfold scenarioD; rw [commit_eq _ _ _ _ _ h2]
  · unfold scenarioD; rw [commit_eq _ _ _ _ _ h2, h3]; rfl
  · rw [scenarioD_head]; exact CommitNode.noConfusion
  · unfold scenarioD; rw [commit_eq _ _ _ _ _ h2, scan_diskD _ _ h1]

/-- Scenario E for any hash function: the fourth commit records `a.txt` as deleted, and
the `status` that follows lists no file at all. -/
theorem scenarioE_head (hashString : String → Nat) :
    (scenarioE hashString).head =
      CommitNode.node 4 "c4" "t4" [] [] [] ["a.txt"] (scenarioD hashString).head ∧
    (status hashString diskE (scenarioE hashString)).2 =
      some { newFiles := [], modifiedFiles := [], deletedFiles := [] } := by
  obtain ⟨h1, h2, h3, h4, h5⟩ := scenarioD_fields hashString
  have hE : scenarioE hashString =
      commit hashString diskE "t4" "c4" (scenarioD hashString) := rfl
  have hinit : (scenarioE hashString).initialized = true := by
    rw [hE, commit_eq _ _ _ _ _ h2]
  have hpath : (scenarioE hashString).repoPath = "repo" := by
    rw [hE, commit_eq _ _ _ _ _ h2]; exact h1
  have hL : (scenarioE hashString).lastCommitState =
      [("b.txt", FileInfo.make "b.txt" (hashString "z") "z")] := by
    rw [hE, commit_eq _ _ _ _ _ h2, scan_diskE _ _ h1]
  constructor
  · rw [hE, commit_head_nonroot _ _ _ _ _ h2 h4, scan_diskE _ _ h1, h3, h5]
    simp [findDeltas, findNewFiles, findDeletedFiles, FileMap.find, FileInfo.make]
  · rw [status_eq _ _ _ hinit, scan_diskE _ _ hpath, hL]
    simp [findNewFiles, findModifiedFiles, findDeletedFiles, FileMap.find, hashDiffers]

end MiniGit

/-! ## The commit history and `log` -/

namespace MiniGit

theorem logEntries_node (c : CommitNode) (hc : c ≠ CommitNode.nullptr) :
    logEntries c = c.logEntry :: logEntries c.parent := by
  cases c with
  | nullptr => exact absurd rfl hc
  | node _ _ _ _ _ _ _ _ => rfl

theorem log_fst (st : MiniGit) : (log st).1 = st := by
  unfold log
  split
  · rfl
  · split <;> rfl

theorem log_of_head (st : MiniGit) (hinit : st.initialized = true)
    (hhead : st.head ≠ CommitNode.nullptr) :
    log st = (st, LogOutput.history (logEntries st.head)) := by
  unfold log
  rw [if_neg (by simp [hinit])]
  cases hh : st.head with
  | nullptr => exact absurd hh hhead
  | node _ _ _ _ _ _ _ _ => rfl

theorem commitAll_take_succ (hashString : String → Nat) (calls : List CommitCall)
    (st : MiniGit) (k : Nat) (hk : k < calls.length) :
    commitAll hashString (calls.take (k + 1)) st =
      commit hashString calls[k].fs calls[k].timestamp calls[k].message
        (commitAll hashString (calls.take k) st) := by
  have htake : calls.take (k + 1) = calls.take k ++ [calls[k]] := by
    rw [List.take_succ, List.getElem?_eq_getElem hk]
    rfl
  rw [htake, commitAll_append]

theorem commitAll_take_head (hashString : String → Nat) (calls : List CommitCall)
    (st : MiniGit) (hinit : st.initialized = true) (k : Nat) (hk : k < calls.length) :
    (commitAll hashString (calls.take (k + 1)) st).head ≠ CommitNode.nullptr ∧
    (commitAll hashString (calls.take (k + 1)) st).head.commitId =
      st.nextCommitId + (k : Int) ∧
    (commitAll hashString (calls.take (k + 1)) st).head.message = calls[k].message ∧
    (commitAll hashString (calls.take (k + 1)) st).head.timestamp = calls[k].timestamp ∧
    (commitAll hashString (calls.take (k + 1)) st).head.parent =
      (commitAll hashString (calls.take k) st).head := by
  have hprev := commitAll_counters hashString (calls.take k) st hinit
  have hf := commit_head_fields hashString calls[k].fs calls[k].timestamp
    calls[k].message _ hprev.1
  have hlen : (calls.take k).length = k := by
    rw [List.length_take]
    exact Nat.min_eq_left (Nat.le_of_lt hk)
  rw [commitAll_take_succ hashString calls st k hk]
  refine ⟨hf.1, ?_, hf.2.2.1, hf.2.2.2.1, hf.2.2.2.2.1⟩
  rw [hf.2.1, hprev.2.1, hlen]

theorem logEntries_take (hashString : String → Nat) (calls : List CommitCall)
    (st : MiniGit) (hinit : st.initialized = true) (j k : Nat) (hj : j < k)
    (hk : k ≤ calls.length) :
    (logEntries (commitAll hashString (calls.take k) st).head)[j]? =
      some (commitAll hashString (calls.take (k - j)) st).head.logEntry := by
  induction j generalizing k with
  | zero =>
    obtain ⟨m, rfl⟩ : ∃ m, k = m + 1 := ⟨k - 1, by omega⟩
    have h := commitAll_take_head hashString calls st hinit m (by omega)
    rw [logEntries_node _ h.1]
    simp
  | succ i ih =>
    obtain ⟨m, rfl⟩ : ∃ m, k = m + 1 := ⟨k - 1, by omega⟩
    have h := commitAll_take_head hashString calls st hinit m (by omega)
    rw [logEntries_node _ h.1, List.getElem?_cons_succ, h.2.2.2.2, ih m (by omega) (by omega)]
    have he : m + 1 - (i + 1) = m - i := by omega
    rw [he]

theorem logEntries_length (hashString : String → Nat) (calls : List CommitCall)
    (st : MiniGit) (hinit : st.initialized = true) :
    (logEntries (commitAll hashString calls st).head).length =
      calls.length + (logEntries st.head).length := by
  induction calls using List.reverseRecOn with
  | nil => simp [commitAll]
  | append_singleton calls call ih =>
    have hprev := commitAll_counters hashString calls st hinit
    have hf := commit_head_fields hashString call.fs call.timestamp call.message _ hprev.1
    rw [commitAll_append, logEntries_node _ hf.1, hf.2.2.2.2.1]
    rw [List.length_cons, ih, List.length_append, List.length_singleton]
    omega

end MiniGit

namespace MiniGit

/-- C11. On a freshly constructed repository on which `init` and then `n ≥ 1` commits
were made, `log` leaves the object as it is and reports `n` entries, newest first: the
entry at position `j` (counted from 0) has id `n - j` and the message of the commit
number `n - j`, and it is the entry of the head that commit created (its `addedFiles`,
delta filenames and `deletedFiles`). For every initialized state the entries after a
commit are the entry of the new head followed by the entries before it, and `log` never
changes the object. -/
theorem log_history (hashString : String → Nat) (path : String) (calls : List CommitCall)
    (hn : 1 ≤ calls.length) :
    log (commitAll hashString calls (afterInit path new)) =
      (commitAll hashString calls (afterInit path new),
        LogOutput.history (logEntries (commitAll hashString calls (afterInit path new)).head)) ∧
    (logEntries (commitAll hashString calls (afterInit path new)).head).length = calls.length ∧
    (∀ j (hj : j < calls.length),
      ∃ e, (logEntries (commitAll hashString calls (afterInit path new)).head)[j]? = some e ∧
        e.commitId = (calls.length : Int) - (j : Int) ∧
        e.message = calls[calls.length - 1 - j].message ∧
        e = (commitAll hashString (calls.take (calls.length - j))
              (afterInit path new)).head.logEntry) ∧
    (∀ (st : MiniGit) (fs : FileSystem) (timestamp message : String),
      st.initialized = true →
        logEntries (commit hashString fs timestamp message st).head =
          (commit hashString fs timestamp message st).head.logEntry ::
            logEntries st.head) ∧
    (∀ st : MiniGit, (log st).1 = st) := by
  have hinit : (afterInit path new).initialized = true := rfl
  have hall := commitAll_counters hashString calls (afterInit path new) hinit
  have htake : calls.take calls.length = calls := List.take_length calls
  have hlast := commitAll_take_head hashString calls (afterInit path new) hinit
    (calls.length - 1) (by omega)
  have hsucc : calls.length - 1 + 1 = calls.length := by omega
  rw [hsucc, htake] at hlast
  refine ⟨log_of_head _ hall.1 hlast.1, ?_, ?_, ?_, log_fst⟩
  · rw [logEntries_length hashString calls _ hinit]
    rfl
  · intro j hj
    have hget := logEntries_take hashString calls (afterInit path new) hinit j calls.length hj
      (le_refl _)
    rw [htake] at hget
    refine ⟨_, hget, ?_, ?_, rfl⟩
    · have hk := commitAll_take_head hashString calls (afterInit path new) hinit
        (calls.length - 1 - j) (by omega)
      have he : calls.length - 1 - j + 1 = calls.length - j := by omega
      rw [he] at hk
      show (commitAll hashString (calls.take (calls.length - j))
        (afterInit path new)).head.commitId = _
      rw [hk.2.1]
      simp only [afterInit, new]
      omega
    · have hk := commitAll_take_head hashString calls (afterInit path new) hinit
        (calls.length - 1 - j) (by omega)
      have he : calls.length - 1 - j + 1 = calls.length - j := by omega
      rw [he] at hk
      exact hk.2.2.1
  · intro st fs timestamp message hst
    have hf := commit_head_fields hashString fs timestamp message st hst
    rw [logEntries_node _ hf.1, hf.2.2.2.2.1]

/-- C11 on the two commits of Scenarios B and C: `log` lists commit 2 with `a.txt`
modified, then commit 1. -/
theorem log_history_scenarioC :
    1 ≤ callsC.length ∧
    (log (commitAll sampleHash callsC (afterInit "repo" new))).1 =
      commitAll sampleHash callsC (afterInit "repo" new) ∧
    (log (commitAll sampleHash callsC (afterInit "repo" new))).2 =
      LogOutput.history
        [{ commitId := 2, message := "c2", timestamp := "t2", addedFiles := [],
           modifiedFiles := ["a.txt"], deletedFiles := [] },
         { commitId := 1, message := "c1", timestamp := "t1", addedFiles := [],
           modifiedFiles := [], deletedFiles := [] }] :=
  ⟨by decide,
    congrArg Prod.fst (log_history sampleHash "repo" callsC (by decide)).1,
    (congrArg Prod.snd (log_history sampleHash "repo" callsC (by decide)).1).trans
      (by decide)⟩

end MiniGit

/-! ## Empty commits, rejected operations and missing paths -/

namespace MiniGit

theorem addedFileInfos_self (S : FileMap) (hS : S.Ordered) : addedFileInfos S S = [] := by
  rw [addedFileInfos_eq S S hS, List.filter_eq_nil_iff]
  intro e he
  have hk : e.1 ∈ S.keys := List.mem_map_of_mem Prod.fst he
  have : S.find e.1 ≠ none := fun h => (FileMap.find_eq_none_iff S e.1).mp h hk
  simpa using this

theorem findDeltas_self (S : FileMap) (hS : S.Ordered) : findDeltas S S = [] := by
  have h := findDeltas_filenames S S
  rw [findModifiedFiles_self S hS] at h
  exact List.map_eq_nil_iff.mp h

/-- C12. For every initialized repository with a commit, a commit made when the scanned
snapshot equals `lastCommitState` creates a new head with the next id and the given
message whose `files`, `deltas`, `addedFiles` and `deletedFiles` are empty and whose
parent is the old head; `nextCommitId` advances and `lastCommitState` keeps its value. -/
theorem commit_unchanged_tree (hashString : String → Nat) (fs : FileSystem)
    (timestamp message : String) (st : MiniGit) (hinit : st.initialized = true)
    (hhead : st.head ≠ CommitNode.nullptr)
    (hsame : (scanRepository hashString fs st).stagingArea = st.lastCommitState) :
    (commit hashString fs timestamp message st).head =
      CommitNode.node st.nextCommitId message timestamp [] [] [] [] st.head ∧
    (commit hashString fs timestamp message st).nextCommitId = st.nextCommitId + 1 ∧
    (commit hashString fs timestamp message st).lastCommitState = st.lastCommitState := by
  have hS := scanRepository_ordered hashString fs st
  have hc := commit_eq hashString fs timestamp message st hinit
  refine ⟨?_, by rw [hc], by rw [hc, hsame]⟩
  rw [hc]
  cases hh : st.head with
  | nullptr => exact absurd hh hhead
  | node _ _ _ _ _ _ _ _ =>
    simp only
    rw [← hsame, addedFileInfos_self _ hS, findDeltas_self _ hS, findNewFiles_self,
      findDeletedFiles_self]

/-- C12 after Scenario C: a second commit on the unchanged directory. -/
theorem commit_unchanged_tree_witness :
    (scenarioC sampleHash).initialized = true ∧
    (scenarioC sampleHash).head ≠ CommitNode.nullptr ∧
    (scanRepository sampleHash diskC (scenarioC sampleHash)).stagingArea =
      (scenarioC sampleHash).lastCommitState ∧
    (commit sampleHash diskC "t3" "again" (scenarioC sampleHash)).head =
      CommitNode.node 3 "again" "t3" [] [] [] [] (scenarioC sampleHash).head ∧
    (commit sampleHash diskC "t3" "again" (scenarioC sampleHash)).nextCommitId = 4 ∧
    (commit sampleHash diskC "t3" "again" (scenarioC sampleHash)).lastCommitState =
      (scenarioC sampleHash).lastCommitState :=
  ⟨by decide, by decide, by decide,
    commit_unchanged_tree sampleHash diskC "t3" "again" (scenarioC sampleHash) (by decide)
      (by decide) (by decide)⟩

/-- C15. On a repository that is not initialized, `status`, `commit` and `log` return
the object exactly as it was, so no commit record is created; they only report that the
repository is not initialized. -/
theorem uninitialized_noop (hashString : String → Nat) (fs : FileSystem)
    (timestamp message : String) (st : MiniGit) (hinit : st.initialized = false) :
    status hashString fs st = (st, none) ∧
    commit hashString fs timestamp message st = st ∧
    log st = (st, LogOutput.notInitialized) := by
  refine ⟨?_, ?_, ?_⟩
  · unfold status
    rw [if_pos hinit]
  · unfold commit
    rw [if_pos hinit]
  · unfold log
    rw [if_pos hinit]

/-- C15 on the freshly constructed object, with files on the disk. -/
theorem uninitialized_noop_witness :
    new.initialized = false ∧
    status sampleHash diskB new = (new, none) ∧
    commit sampleHash diskB "t1" "c1" new = new ∧
    log new = (new, LogOutput.notInitialized) :=
  ⟨rfl, uninitialized_noop sampleHash diskB "t1" "c1" new rfl⟩

end MiniGit

namespace MiniGit

/-- C13, the code on the command line `commit` followed by one space, on a freshly
initialized repository whose directory holds `a.txt`: the round of the command loop calls
`commit("")`, which creates the commit record with id 1 and the empty message and moves
`head`, `nextCommitId` and `lastCommitState`, whereas the line `commit` alone is turned
down by the loop. -/
theorem commit_empty_message_accepted :
    mainLoopBody sampleHash initDiskDirs diskB "t1" "commit " (afterInit "repo" new) =
      commit sampleHash diskB "t1" "" (afterInit "repo" new) ∧
    (commit sampleHash diskB "t1" "" (afterInit "repo" new)).head =
      CommitNode.node 1 "" "t1" [("a.txt", FileInfo.make "a.txt" (sampleHash "x") "x")]
        [] [] [] CommitNode.nullptr ∧
    (afterInit "repo" new).head = CommitNode.nullptr ∧
    (commit sampleHash diskB "t1" "" (afterInit "repo" new)).nextCommitId = 2 ∧
    (afterInit "repo" new).nextCommitId = 1 ∧
    (commit sampleHash diskB "t1" "" (afterInit "repo" new)).lastCommitState =
      [("a.txt", FileInfo.make "a.txt" (sampleHash "x") "x")] ∧
    (afterInit "repo" new).lastCommitState = [] ∧
    mainLoopBody sampleHash initDiskDirs diskB "t1" "commit" (afterInit "repo" new) =
      afterInit "repo" new := by
  decide

theorem findDeletedFiles_nil (L : FileMap) : findDeletedFiles [] L = L.keys := by
  rw [findDeletedFiles_eq]
  simp [FileMap.find, FileMap.keys]

theorem scanRepository_missing (hashString : String → Nat) (fs : FileSystem) (st : MiniGit)
    (hmiss : fs st.repoPath = none) : (scanRepository hashString fs st).stagingArea = [] := by
  simp only [scanRepository, hmiss]

/-- C14 as the specification states it fails: on the state of Scenario B, a commit made
while the repository path does not exist creates a record and changes `head`,
`nextCommitId` and `lastCommitState`. -/
theorem commit_missing_path_counterexample :
    (scenarioB sampleHash).initialized = true ∧
    diskMissing (scenarioB sampleHash).repoPath = none ∧
    (commit sampleHash diskMissing "t2" "c2" (scenarioB sampleHash)).head ≠
      (scenarioB sampleHash).head ∧
    (commit sampleHash diskMissing "t2" "c2" (scenarioB sampleHash)).nextCommitId ≠
      (scenarioB sampleHash).nextCommitId ∧
    (commit sampleHash diskMissing "t2" "c2" (scenarioB sampleHash)).lastCommitState ≠
      (scenarioB sampleHash).lastCommitState := by
  decide

/-- C14, amended. For every initialized repository state, a commit made while the
repository path does not exist is carried out on the empty snapshot: the new head has
the next id, the given message, empty `files`, `deltas` and `addedFiles`, the old head
as parent and, when there was a commit before, every filename of the old
`lastCommitState` in `deletedFiles`; `nextCommitId` advances, `stagingArea` and
`lastCommitState` become empty. -/
theorem commit_missing_path (hashString : String → Nat) (fs : FileSystem)
    (timestamp message : String) (st : MiniGit) (hinit : st.initialized = true)
    (hmiss : fs st.repoPath = none) :
    commit hashString fs timestamp message st =
      { repoPath := st.repoPath
        gitDir := st.gitDir
        initialized := true
        head :=
          CommitNode.node st.nextCommitId message timestamp [] [] []
            (if st.head = CommitNode.nullptr then [] else st.lastCommitState.keys) st.head
        nextCommitId := st.nextCommitId + 1
        stagingArea := []
        lastCommitState := [] } := by
  rw [commit_eq hashString fs timestamp message st hinit,
    scanRepository_missing hashString fs st hmiss]
  cases hh : st.head with
  | nullptr => rfl
  | node _ _ _ _ _ _ _ _ =>
    simp only [findDeletedFiles_nil, reduceCtorEq, if_false]
    rfl

/-- C14, amended, on the state of Scenario B: the commit on the missing path records
`a.txt` as deleted. -/
theorem commit_missing_path_witness :
    (scenarioB sampleHash).initialized = true ∧
    diskMissing (scenarioB sampleHash).repoPath = none ∧
    commit sampleHash diskMissing "t2" "c2" (scenarioB sampleHash) =
      { repoPath := "repo"
        gitDir := "repo/.minigit"
        initialized := true
        head := CommitNode.node 2 "c2" "t2" [] [] [] ["a.txt"] (scenarioB sampleHash).head
        nextCommitId := 3
        stagingArea := []
        lastCommitState := [] } :=
  ⟨by decide, rfl,
    (commit_missing_path sampleHash diskMissing "t2" "c2" (scenarioB sampleHash) (by decide)
      rfl).trans (by decide)⟩

end MiniGit

/-! ## The snapshot built by `scanRepository` -/

namespace FileMap

theorem find_insert (m : FileMap) (hm : m.Ordered) (k : String) (v : FileInfo)
    (k' : String) :
    (m.insert k v).find k' = if k = k' then some v else m.find k' := by
  induction m with
  | nil => simp [insert, find]
  | cons e rest ih =>
    obtain ⟨k1, v1⟩ := e
    have hp := List.pairwise_cons.mp hm
    unfold insert
    by_cases h1 : strLess k k1 = true
    · rw [if_pos h1]
      simp only [find]
    · rw [if_neg h1]
      by_cases h2 : strLess k1 k = true
      · rw [if_pos h2]
        simp only [find]
        rw [ih hp.2]
        by_cases hk1 : k1 = k'
        · have hne : ¬ k = k' := by
            intro hk
            exact strLess_ne h2 (hk1.trans hk.symm)
          simp [hk1, hne]
        · simp [hk1]
      · rw [if_neg h2]
        have hk : k = k1 := strLess_total (by simpa using h1) (by simpa using h2)
        subst hk
        by_cases hk' : k = k'
        · simp [find, hk']
        · simp [find, hk']

end FileMap

namespace MiniGit

/-- The entries of a directory for which `scanRepository` stores a `FileInfo`. -/
theorem scanEntry_find (hashString : String → Nat) (m : FileMap) (hm : m.Ordered)
    (e : DirEntry) (k : String) :
    (scanEntry hashString m e).find k =
      if e.isRegularFile = true ∧ strContains e.filename ".minigit" = false ∧
          e.filename = k then
        some (FileInfo.make k (hashString (readFileContent e)) (readFileContent e))
      else m.find k := by
  simp only [scanEntry]
  by_cases hr : e.isRegularFile = true
  · by_cases hc : strContains e.filename ".minigit" = true
    · simp [hr, hc]
    · rw [if_pos hr, if_neg hc, FileMap.find_insert m hm]
      by_cases hk : e.filename = k
      · subst hk
        simp [hr, hc]
      · simp [hk]
  · simp [hr]

theorem foldl_scanEntry_find (hashString : String → Nat) (entries : List DirEntry)
    (hnodup : (entries.map DirEntry.filename).Nodup) (k : String) (v : FileInfo) :
    (entries.foldl (scanEntry hashString) []).find k = some v ↔
      ∃ e ∈ entries, e.isRegularFile = true ∧ strContains e.filename ".minigit" = false ∧
        e.filename = k ∧
        v = FileInfo.make k (hashString (readFileContent e)) (readFileContent e) := by
  induction entries using List.reverseRecOn generalizing v with
  | nil => simp [FileMap.find]
  | append_singleton entries e ih =>
    have hnd : (entries.map DirEntry.filename).Nodup ∧
        e.filename ∉ entries.map DirEntry.filename := by
      rw [List.map_append, List.nodup_append] at hnodup
      refine ⟨hnodup.1, ?_⟩
      intro hmem
      exact hnodup.2.2 hmem (by simp)
    have hord := foldl_scanEntry_ordered hashString entries [] List.Pairwise.nil
    rw [List.foldl_append, List.foldl_cons, List.foldl_nil,
      scanEntry_find hashString _ hord e k]
    by_cases hkeep : e.isRegularFile = true ∧ strContains e.filename ".minigit" = false ∧
        e.filename = k
    · rw [if_pos hkeep]
      constructor
      · intro hv
        refine ⟨e, by simp, hkeep.1, hkeep.2.1, hkeep.2.2, ?_⟩
        exact (Option.some.inj hv).symm
      · rintro ⟨e', he', _, _, hk', hv'⟩
        rcases List.mem_append.mp he' with hin | hlast
        · exfalso
          apply hnd.2
          rw [hkeep.2.2, ← hk']
          exact List.mem_map_of_mem DirEntry.filename hin
        · have : e' = e := by simpa using hlast
          subst this
          rw [hv']
    · rw [if_neg hkeep, ih hnd.1]
      constructor
      · rintro ⟨e', he', h1, h2, h3, h4⟩
        exact ⟨e', List.mem_append_left _ he', h1, h2, h3, h4⟩
      · rintro ⟨e', he', h1, h2, h3, h4⟩
        rcases List.mem_append.mp he' with hin | hlast
        · exact ⟨e', hin, h1, h2, h3, h4⟩
        · have : e' = e := by simpa using hlast
          subst this
          exact absurd ⟨h1, h2, h3⟩ hkeep

end MiniGit

namespace MiniGit

/-- C16, the code on a directory that holds the metadata directory and the regular
files `notes.minigit = "x"` and `a.txt = "y"`: `notes.minigit` is a regular file directly
inside the directory and not inside the `.minigit` subdirectory, yet the snapshot built
by `scanRepository` has no entry for it; it holds `a.txt` only. -/
theorem scanRepository_skips_named_file :
    diskNotes (afterInit "repo" new).repoPath =
      some [metadataDir, regularFile "notes.minigit" "x", regularFile "a.txt" "y"] ∧
    (regularFile "notes.minigit" "x").isRegularFile = true ∧
    (scanRepository sampleHash diskNotes (afterInit "repo" new)).stagingArea.find
      "notes.minigit" = none ∧
    (scanRepository sampleHash diskNotes (afterInit "repo" new)).stagingArea =
      [("a.txt", FileInfo.make "a.txt" (sampleHash "y") "y")] := by
  decide

/-- What the code of `scanRepository` stores. When the repository path does not exist
the snapshot is empty. When it is a directory (whose entries have pairwise different
names), the snapshot maps `k` to `v` exactly when the directory has a regular file named
`k` that passes the test of the guard `filename.find(".minigit")`, and `v` holds that
filename, the content read from the file, the hash of that content and
`isDeleted = false`. -/
theorem scanRepository_snapshot (hashString : String → Nat) (fs : FileSystem)
    (st : MiniGit) :
    (fs st.repoPath = none → (scanRepository hashString fs st).stagingArea = []) ∧
    (∀ entries, fs st.repoPath = some entries →
      (entries.map DirEntry.filename).Nodup →
      ∀ k v, (scanRepository hashString fs st).stagingArea.find k = some v ↔
        ∃ e ∈ entries, e.isRegularFile = true ∧
          strContains e.filename ".minigit" = false ∧ e.filename = k ∧
          v = { filename := k, hash := hashString (readFileContent e),
                content := readFileContent e, isDeleted := false }) := by
  refine ⟨scanRepository_missing hashString fs st, ?_⟩
  intro entries hdir hnodup k v
  have hs : (scanRepository hashString fs st).stagingArea =
      entries.foldl (scanEntry hashString) [] := by
    simp only [scanRepository, hdir]
  rw [hs]
  exact foldl_scanEntry_find hashString entries hnodup k v

/-- The snapshot of a directory with `a.txt = "y"` and a file named `notes.minigit`, and
the snapshot of a missing path. -/
theorem scanRepository_snapshot_witness :
    (scanRepository sampleHash diskNotes (afterInit "repo" new)).stagingArea.find "a.txt" =
      some { filename := "a.txt", hash := sampleHash "y", content := "y",
             isDeleted := false } ∧
    (scanRepository sampleHash diskMissing (afterInit "repo" new)).stagingArea = [] :=
  ⟨((scanRepository_snapshot sampleHash diskNotes (afterInit "repo" new)).2
      [metadataDir, regularFile "notes.minigit" "x", regularFile "a.txt" "y"] rfl
      (by decide) "a.txt" _).mpr
      ⟨regularFile "a.txt" "y", by decide, rfl, by decide, rfl, rfl⟩,
    (scanRepository_snapshot sampleHash diskMissing (afterInit "repo" new)).1 rfl⟩

end MiniGit

/-! ## The lines of a text -/

namespace MiniGit

theorem cutLines_eq (content : String) :
    cutLines content = (cutSegments content.data).map String.mk := by
  unfold cutLines cutSegments
  split <;> simp_all

theorem splitOn_nil_char : ([] : List Char).splitOn '\n' = [[]] := rfl

theorem splitOn_cons_newline (cs : List Char) :
    ('\n' :: cs).splitOn '\n' = [] :: cs.splitOn '\n' := by
  simp [List.splitOn, List.splitOnP_cons]

theorem splitOn_cons_other (c : Char) (cs : List Char) (hc : c ≠ '\n') :
    (c :: cs).splitOn '\n' = (cs.splitOn '\n').modifyHead (List.cons c) := by
  simp [List.splitOn, List.splitOnP_cons, hc]

theorem splitOn_ne_nil (cs : List Char) : cs.splitOn '\n' ≠ [] := by
  simp [List.splitOn, List.splitOnP_ne_nil]

theorem getline_eq_none_iff (ss : List Char) : getline ss = none ↔ ss = [] := by
  cases ss with
  | nil => simp [getline]
  | cons c cs =>
    unfold getline
    split
    · simp
    · cases getline cs <;> simp

theorem cutSegments_nil : cutSegments [] = [] := by decide

theorem cutSegments_cons_newline (cs : List Char) :
    cutSegments ('\n' :: cs) = [] :: cutSegments cs := by
  unfold cutSegments
  rw [splitOn_cons_newline]
  obtain ⟨s, X, hX⟩ := List.exists_cons_of_ne_nil (splitOn_ne_nil cs)
  rw [hX]
  simp only [List.getLast?_cons_cons, List.dropLast_cons₂]
  split <;> rfl

theorem cutSegments_cons_other (c : Char) (cs : List Char) (hc : c ≠ '\n') :
    cutSegments (c :: cs) =
      match cutSegments cs with
      | [] => [[c]]
      | line :: lines => (c :: line) :: lines := by
  unfold cutSegments
  rw [splitOn_cons_other c cs hc]
  obtain ⟨s, X, hX⟩ := List.exists_cons_of_ne_nil (splitOn_ne_nil cs)
  rw [hX]
  cases X with
  | nil =>
    cases s with
    | nil => simp [List.modifyHead]
    | cons a as => simp [List.modifyHead]
  | cons y Y =>
    simp only [List.modifyHead, List.getLast?_cons_cons, List.dropLast_cons₂]
    split <;> rfl

theorem getline_cons_other (c : Char) (cs : List Char) (hc : c ≠ '\n') :
    getline (c :: cs) =
      match getline cs with
      | none => some ([c], [])
      | some (line, rest) => some (c :: line, rest) := by
  rw [getline, if_neg hc]

theorem cutSegments_getline (ss : List Char) :
    cutSegments ss =
      match getline ss with
      | none => []
      | some (line, rest) => line :: cutSegments rest := by
  induction ss with
  | nil => rw [cutSegments_nil]; rfl
  | cons c cs ih =>
    by_cases hc : c = '\n'
    · subst hc
      rw [cutSegments_cons_newline]
      simp [getline]
    · rw [cutSegments_cons_other c cs hc, ih, getline_cons_other c cs hc]
      cases hg : getline cs with
      | none => simp [cutSegments_nil]
      | some p =>
        obtain ⟨line, rest⟩ := p
        simp

theorem splitLinesLoop_eq (fuel : Nat) (ss : List Char) (lines : List String)
    (h : ss.length < fuel) :
    splitLinesLoop fuel ss lines = lines ++ (cutSegments ss).map String.mk := by
  induction fuel generalizing ss lines with
  | zero => omega
  | succ n ih =>
    unfold splitLinesLoop
    rw [cutSegments_getline ss]
    cases hg : getline ss with
    | none => simp
    | some p =>
      obtain ⟨line, rest⟩ := p
      have hlt := getline_length_lt ss line rest hg
      simp only
      rw [ih rest _ (by omega)]
      simp

theorem splitLines_eq_cutSegments (content : String) :
    splitLines content = (cutSegments content.data).map String.mk := by
  unfold splitLines
  rw [splitLinesLoop_eq _ _ _ (Nat.lt_succ_self _)]
  rfl

end MiniGit

namespace MiniGit

theorem cutSegments_no_newline (ss : List Char) :
    ∀ line ∈ cutSegments ss, '\n' ∉ line := by
  induction ss with
  | nil => simp [cutSegments_nil]
  | cons c cs ih =>
    by_cases hc : c = '\n'
    · subst hc
      rw [cutSegments_cons_newline]
      intro line hline
      rcases List.mem_cons.mp hline with h | h
      · simp [h]
      · exact ih line h
    · rw [cutSegments_cons_other c cs hc]
      cases hs : cutSegments cs with
      | nil =>
        intro line hline
        have : line = [c] := by simpa using hline
        subst this
        simpa using fun h : '\n' = c => hc h.symm
      | cons l ls =>
        rw [hs] at ih
        intro line hline
        rcases List.mem_cons.mp hline with h | h
        · subst h
          have hl := ih l (List.mem_cons_self _ _)
          intro hmem
          rcases List.mem_cons.mp hmem with h1 | h1
          · exact hc h1.symm
          · exact hl h1
        · exact ih line (List.mem_cons_of_mem _ h)

/-- C17. For every content, `splitLines` returns the segments obtained by cutting the
content at each `'\n'`, without the terminators, the segment after the last terminator
being a line exactly when it is not empty; no line contains `'\n'`. In particular
`splitLines("") = []`, `splitLines("\n") = [""]` and
`splitLines("a\nb") = splitLines("a\nb\n") = ["a", "b"]`. -/
theorem splitLines_spec (content : String) :
    splitLines content = cutLines content ∧
    (∀ line ∈ splitLines content, '\n' ∉ line.data) ∧
    splitLines "" = [] ∧
    splitLines "\n" = [""] ∧
    splitLines "a\nb" = ["a", "b"] ∧
    splitLines "a\nb\n" = ["a", "b"] := by
  refine ⟨?_, ?_, by decide, by decide, by decide, by decide⟩
  · rw [splitLines_eq_cutSegments, cutLines_eq]
  · intro line hline
    rw [splitLines_eq_cutSegments] at hline
    obtain ⟨l, hl, rfl⟩ := List.mem_map.mp hline
    exact cutSegments_no_newline content.data l hl

/-- C17 on a text with an empty line in the middle and no terminator at the end. -/
theorem splitLines_spec_witness :
    splitLines "a\n\nb" = ["a", "", "b"] ∧ cutLines "a\n\nb" = ["a", "", "b"] :=
  ⟨(splitLines_spec "a\n\nb").1.trans (by decide), by decide⟩

theorem delta_lists_empty_iff (o n : List String) :
    (((List.range (min o.length n.length)).filter
        (fun i => o.getD i "" ≠ n.getD i "")).map (fun i => n.getD i "") ++
        n.drop (min o.length n.length) = [] ∧
      ((List.range (min o.length n.length)).filter
        (fun i => o.getD i "" ≠ n.getD i "")).map (fun i => o.getD i "") ++
        o.drop (min o.length n.length) = [] ∧
      ((List.range (min o.length n.length)).filter
        (fun i => o.getD i "" ≠ n.getD i "")).map (fun i => (i : Int)) = []) ↔
      o = n := by
  constructor
  · rintro ⟨h1, h2, h3⟩
    have hn : n.length ≤ min o.length n.length := by
      have := (List.append_eq_nil.mp h1).2
      exact List.drop_eq_nil_iff.mp this
    have ho : o.length ≤ min o.length n.length := by
      have := (List.append_eq_nil.mp h2).2
      exact List.drop_eq_nil_iff.mp this
    have hlen : o.length = n.length := by omega
    have hf : ∀ i, i < o.length → i < n.length → o.getD i "" = n.getD i "" := by
      simpa [List.filter_eq_nil_iff] using h3
    apply List.ext_getElem hlen
    intro i hi1 hi2
    have := hf i hi1 hi2
    simpa [List.getD_eq_getElem?_getD, List.getElem?_eq_getElem hi1,
      List.getElem?_eq_getElem hi2] using this
  · rintro rfl
    have hf : (List.range (min o.length o.length)).filter
        (fun i => o.getD i "" ≠ o.getD i "") = [] := by
      apply List.filter_eq_nil_iff.mpr
      intro i _
      simp
    rw [hf]
    simp

theorem computeDelta_lists_empty_iff (filename oldContent newContent : String) :
    ((computeDelta filename oldContent newContent).addedLines = [] ∧
      (computeDelta filename oldContent newContent).deletedLines = [] ∧
      (computeDelta filename oldContent newContent).modifiedLineNumbers = []) ↔
      splitLines oldContent = splitLines newContent := by
  rw [computeDelta_eq]
  exact delta_lists_empty_iff (splitLines oldContent) (splitLines newContent)

/-- C18. For every pair of contents, the delta computed by `computeDelta` has empty
`addedLines`, `deletedLines` and `modifiedLineNumbers` if and only if the two contents
have the same lines. The contents `"a"` and `"a\n"` are different and have an entirely
empty delta, and a commit on a repository with a commit can store such a delta for a
file whose hash changed. -/
theorem computeDelta_empty_iff :
    (∀ filename oldContent newContent : String,
      ((computeDelta filename oldContent newContent).addedLines = [] ∧
        (computeDelta filename oldContent newContent).deletedLines = [] ∧
        (computeDelta filename oldContent newContent).modifiedLineNumbers = []) ↔
        splitLines oldContent = splitLines newContent) ∧
    ("a" ≠ "a\n" ∧
      computeDelta "a.txt" "a" "a\n" =
        { filename := "a.txt", addedLines := [], deletedLines := [],
          modifiedLineNumbers := [] }) ∧
    (∃ (hashString : String → Nat) (fs : FileSystem) (st : MiniGit) (old new : FileInfo),
      st.initialized = true ∧ st.head ≠ CommitNode.nullptr ∧
      st.lastCommitState.find "a.txt" = some old ∧
      (scanRepository hashString fs st).stagingArea.find "a.txt" = some new ∧
      old.hash ≠ new.hash ∧
      (commit hashString fs "t2" "c2" st).head.deltas =
        [{ filename := "a.txt", addedLines := [], deletedLines := [],
           modifiedLineNumbers := [] }]) := by
  refine ⟨computeDelta_lists_empty_iff, ⟨by decide, by decide⟩, ?_⟩
  exact ⟨sampleHash, diskH, commit sampleHash diskG "t1" "c1" (afterInit "repo" new),
    FileInfo.make "a.txt" (sampleHash "a") "a",
    FileInfo.make "a.txt" (sampleHash "a\n") "a\n",
    by decide, by decide, by decide, by decide, by decide, by decide⟩

/-- C18 on the contents `"x\ny"` and `"x\ny\n"`. -/
theorem computeDelta_empty_iff_witness :
    splitLines "x\ny" = splitLines "x\ny\n" ∧
    (computeDelta "f" "x\ny" "x\ny\n").addedLines = [] ∧
    (computeDelta "f" "x\ny" "x\ny\n").deletedLines = [] ∧
    (computeDelta "f" "x\ny" "x\ny\n").modifiedLineNumbers = [] :=
  ⟨by decide, (computeDelta_empty_iff.1 "f" "x\ny" "x\ny\n").mpr (by decide)⟩

end MiniGit

/-! ## `status` against `commit`, and `init` on a repository with history -/

namespace MiniGit

theorem findNewFiles_nil (S : FileMap) : findNewFiles S [] = S.keys := by
  rw [findNewFiles_eq]
  simp [FileMap.find, FileMap.keys]

theorem findModifiedFiles_nil (S : FileMap) : findModifiedFiles S [] = [] := by
  rw [findModifiedFiles_eq]
  simp [hashDiffers, FileMap.find]

theorem findDeletedFiles_of_nil (S : FileMap) : findDeletedFiles S [] = [] := rfl

/-- C19. On an initialized repository with a commit, the three lists `status` reports
are, in the same order, the `addedFiles`, the filenames of the `deltas` and the
`deletedFiles` that a commit on the same directory content records. On an initialized
repository without a commit (null `head`, empty `lastCommitState`) `status` reports every
scanned file as new while the root commit records no added file, so the lists differ as
soon as the snapshot has a file. -/
theorem status_matches_commit (hashString : String → Nat) (fs : FileSystem)
    (timestamp message : String) (st : MiniGit) (hinit : st.initialized = true) :
    (st.head ≠ CommitNode.nullptr →
      (status hashString fs st).2 =
        some { newFiles := (commit hashString fs timestamp message st).head.addedFiles
               modifiedFiles := (commit hashString fs timestamp message st).head.deltaFiles
               deletedFiles :=
                 (commit hashString fs timestamp message st).head.deletedFiles }) ∧
    (st.head = CommitNode.nullptr → st.lastCommitState = [] →
      (status hashString fs st).2 =
        some { newFiles := (scanRepository hashString fs st).stagingArea.keys
               modifiedFiles := [], deletedFiles := [] } ∧
      (commit hashString fs timestamp message st).head.addedFiles = [] ∧
      (commit hashString fs timestamp message st).head.deltaFiles = [] ∧
      (commit hashString fs timestamp message st).head.deletedFiles = [] ∧
      ((scanRepository hashString fs st).stagingArea ≠ [] →
        (scanRepository hashString fs st).stagingArea.keys ≠
          (commit hashString fs timestamp message st).head.addedFiles)) := by
  constructor
  · intro hhead
    rw [status_eq hashString fs st hinit,
      commit_head_nonroot hashString fs timestamp message st hinit hhead]
    simp only [CommitNode.addedFiles, CommitNode.deltaFiles, CommitNode.deltas,
      CommitNode.deletedFiles, findDeltas_filenames]
  · intro hhead hL
    have hc := commit_head_root hashString fs timestamp message st hinit hhead
    rw [status_eq hashString fs st hinit, hL, findNewFiles_nil, findModifiedFiles_nil,
      findDeletedFiles_of_nil, hc]
    refine ⟨rfl, rfl, rfl, rfl, ?_⟩
    intro hne hkeys
    apply hne
    have : (scanRepository hashString fs st).stagingArea.keys = [] := hkeys
    exact List.map_eq_nil_iff.mp this

/-- C19 on the state of Scenario D with a file deleted, one edited and one new, and on a
freshly initialized repository whose directory holds `a.txt`. -/
theorem status_matches_commit_witness :
    (scenarioD sampleHash).initialized = true ∧
    (scenarioD sampleHash).head ≠ CommitNode.nullptr ∧
    (status sampleHash diskF (scenarioD sampleHash)).2 =
      some { newFiles := (commit sampleHash diskF "t5" "c5" (scenarioD sampleHash)).head.addedFiles
             modifiedFiles :=
               (commit sampleHash diskF "t5" "c5" (scenarioD sampleHash)).head.deltaFiles
             deletedFiles :=
               (commit sampleHash diskF "t5" "c5" (scenarioD sampleHash)).head.deletedFiles } ∧
    (status sampleHash diskF (scenarioD sampleHash)).2 =
      some { newFiles := ["c.txt"], modifiedFiles := ["b.txt"], deletedFiles := ["a.txt"] } ∧
    (status sampleHash diskB (afterInit "repo" new)).2 =
      some { newFiles := ["a.txt"], modifiedFiles := [], deletedFiles := [] } ∧
    (commit sampleHash diskB "t1" "c1" (afterInit "repo" new)).head.addedFiles = [] :=
  ⟨by decide, by decide,
    (status_matches_commit sampleHash diskF "t5" "c5" (scenarioD sampleHash) (by decide)).1
      (by decide),
    by decide,
    ((status_matches_commit sampleHash diskB "t1" "c1" (afterInit "repo" new) rfl).2 rfl
      rfl).1.trans (by decide),
    ((status_matches_commit sampleHash diskB "t1" "c1" (afterInit "repo" new) rfl).2 rfl rfl).2.1⟩

end MiniGit

namespace MiniGit

theorem init_cases (disk : InitDisk) (path : String) (st : MiniGit) :
    init disk path st = InitResult.thrown { st with repoPath := path } ∨
    init disk path st =
      InitResult.thrown { st with repoPath := path, gitDir := path ++ "/.minigit" } ∨
    init disk path st = InitResult.returned (afterInit path st) := by
  simp only [init]
  split
  · exact Or.inl rfl
  · split
    · exact Or.inr (Or.inl rfl)
    · exact Or.inr (Or.inr rfl)

/-- Whenever a call of `init` returns, the object it leaves is `afterInit path st`: the
start state of the scenarios and of the commit sequences is what `init` returns. -/
theorem init_returned_eq (disk : InitDisk) (path : String) (st git : MiniGit)
    (hgit : init disk path st = InitResult.returned git) : git = afterInit path st := by
  rcases init_cases disk path st with h | h | h <;> rw [h] at hgit
  · cases hgit
  · cases hgit
  · exact (InitResult.returned.inj hgit).symm

/-- On a disk where `repo` is a directory, `init("repo")` on the freshly constructed
object returns. -/
theorem init_repo_returns :
    init initDiskDirs "repo" new = InitResult.returned (afterInit "repo" new) := by
  decide

theorem init_returned_iff (disk : InitDisk) (path : String) (st : MiniGit) :
    init disk path st = InitResult.returned (afterInit path st) ↔
      ¬ (disk.kind path = PathKind.missing ∧ disk.refuses path = true) ∧
      disk.kind path ≠ PathKind.notDirectory ∧
      ¬ ((disk.kind path = PathKind.missing ∨
            disk.kind (path ++ "/.minigit") = PathKind.missing) ∧
          disk.refuses (path ++ "/.minigit") = true) := by
  simp only [init]
  split
  · rename_i h
    simp only [decide_eq_true_eq] at h
    simp [h.1, h.2]
  · rename_i h
    simp only [decide_eq_true_eq] at h
    split
    · rename_i h2
      simp only [decide_eq_true_eq, Bool.or_eq_true] at h2
      simp only [reduceCtorEq, false_iff]
      rintro ⟨_, hnd, hr⟩
      rcases h2.2 with h3 | h3
      · exact hnd h3
      · apply hr
        refine ⟨?_, h3⟩
        rcases h2.1 with (h4 | h4) | h4
        · exact Or.inl h4
        · exact absurd h4 hnd
        · exact Or.inr h4
    · rename_i h2
      simp only [decide_eq_true_eq, Bool.or_eq_true] at h2
      simp only [afterInit, true_iff]
      refine ⟨h, ?_, ?_⟩
      · intro hnd
        exact h2 ⟨Or.inl (Or.inr hnd), Or.inl hnd⟩
      · rintro ⟨hm, hr⟩
        apply h2
        refine ⟨?_, Or.inr hr⟩
        rcases hm with hm | hm
        · exact Or.inl (Or.inl hm)
        · exact Or.inr hm

/-- On every disk, `init` on a path that holds something other than a directory throws
after `repoPath` and `gitDir` are assigned and before `initialized` is. -/
theorem init_throws_of_notDirectory (disk : InitDisk) (path : String) (st : MiniGit)
    (hkind : disk.kind path = PathKind.notDirectory) :
    init disk path st =
      InitResult.thrown { st with repoPath := path, gitDir := path ++ "/.minigit" } := by
  simp [init, hkind]

theorem init_git_initialized (disk : InitDisk) (path : String) (st : MiniGit)
    (hinit : st.initialized = true) : (init disk path st).git.initialized = true := by
  rcases init_cases disk path st with h | h | h <;> rw [h]
  · exact hinit
  · exact hinit
  · rfl

theorem mainLoopBody_initialized (hashString : String → Nat) (disk : InitDisk)
    (fs : FileSystem) (timestamp command : String) (git : MiniGit)
    (hinit : git.initialized = true) :
    (mainLoopBody hashString disk fs timestamp command git).initialized = true := by
  have hs : (status hashString fs git).1.initialized = true := by
    rw [status_eq hashString fs git hinit]
    exact hinit
  unfold mainLoopBody
  split
  · exact hinit
  · simp only
    split
    · split
      · exact hinit
      · exact init_git_initialized disk _ git hinit
    · split
      · exact hs
      · split
        · split
          · exact hinit
          · exact commit_initialized _ _ _ _ _ hinit
        · split
          · rw [log_fst]; exact hinit
          · exact hinit

/-- C20 as the claim states it fails: on a disk where `f` is a regular file, `init("f")`
on the freshly constructed object throws while it creates `f/.minigit`, before
`initialized` is assigned; the object is left with `initialized = false`, also after the
round of the command loop on the line `init f`. -/
theorem init_throws_on_regular_file :
    initDiskFile.kind "f" = PathKind.notDirectory ∧
    init initDiskFile "f" new =
      InitResult.thrown { new with repoPath := "f", gitDir := "f/.minigit" } ∧
    (init initDiskFile "f" new).git.initialized = false ∧
    (mainLoopBody sampleHash initDiskFile diskMissing "t1" "init f" new).initialized =
      false := by
  decide

/-- C20, amended. For every repository state, disk and path, `init` leaves `head`,
`nextCommitId`, `lastCommitState` and `stagingArea` as they are, whether it returns or
throws. It returns exactly when the path holds a directory or holds nothing and can be
created, and the `.minigit` entry exists or can be created; it has then set `initialized`
to true, `repoPath` to the path and `gitDir` to the path followed by `/.minigit`. When it
throws, `initialized` keeps its value. No operation and no round of the command loop
turns `initialized` from true to false. When the repository has a commit and `init` on another
path returns, the commit that follows is not a root commit: its record has the next id
and the old head as parent, and its `addedFiles` and `deletedFiles` compare the directory
at the new path with the old `lastCommitState`, so every file of the old state that is
absent there is recorded as deleted. -/
theorem init_frame (disk : InitDisk) (path : String) (st : MiniGit) :
    ((init disk path st).git.head = st.head ∧
      (init disk path st).git.nextCommitId = st.nextCommitId ∧
      (init disk path st).git.lastCommitState = st.lastCommitState ∧
      (init disk path st).git.stagingArea = st.stagingArea) ∧
    ((∃ git, init disk path st = InitResult.returned git) ↔
      ¬ (disk.kind path = PathKind.missing ∧ disk.refuses path = true) ∧
      disk.kind path ≠ PathKind.notDirectory ∧
      ¬ ((disk.kind path = PathKind.missing ∨
            disk.kind (path ++ "/.minigit") = PathKind.missing) ∧
          disk.refuses (path ++ "/.minigit") = true)) ∧
    (∀ git, init disk path st = InitResult.returned git →
      git.initialized = true ∧ git.repoPath = path ∧
      git.gitDir = path ++ "/.minigit") ∧
    (∀ git, init disk path st = InitResult.thrown git →
      git.initialized = st.initialized) ∧
    (∀ (hashString : String → Nat) (fs : FileSystem) (timestamp message command : String),
      st.initialized = true →
        (init disk path st).git.initialized = true ∧
        (status hashString fs st).1.initialized = true ∧
        (commit hashString fs timestamp message st).initialized = true ∧
        (log st).1.initialized = true ∧
        (mainLoopBody hashString disk fs timestamp command st).initialized = true) ∧
    (∀ (hashString : String → Nat) (fs : FileSystem) (timestamp message : String)
      (git : MiniGit),
      init disk path st = InitResult.returned git → st.head ≠ CommitNode.nullptr →
        (commit hashString fs timestamp message git).head ≠ CommitNode.nullptr ∧
        (commit hashString fs timestamp message git).head.commitId = st.nextCommitId ∧
        (commit hashString fs timestamp message git).head.parent = st.head ∧
        (commit hashString fs timestamp message git).nextCommitId = st.nextCommitId + 1 ∧
        (commit hashString fs timestamp message git).head.files.keys =
          (commit hashString fs timestamp message git).head.addedFiles ∧
        (∀ k, k ∈ (commit hashString fs timestamp message git).head.addedFiles ↔
          k ∈ (scanRepository hashString fs git).stagingArea.keys ∧
            k ∉ st.lastCommitState.keys) ∧
        (∀ k, k ∈ (commit hashString fs timestamp message git).head.deletedFiles ↔
          k ∈ st.lastCommitState.keys ∧
            k ∉ (scanRepository hashString fs git).stagingArea.keys)) := by
  have hcases := init_cases disk path st
  have hret : ∀ git, init disk path st = InitResult.returned git →
      git = afterInit path st := init_returned_eq disk path st
  refine ⟨?_, ?_, ?_, ?_, ?_, ?_⟩
  · rcases hcases with h | h | h <;> rw [h] <;> exact ⟨rfl, rfl, rfl, rfl⟩
  · rw [← init_returned_iff disk path st]
    constructor
    · rintro ⟨git, hgit⟩
      rw [hgit, hret git hgit]
    · intro h
      exact ⟨_, h⟩
  · intro git hgit
    rw [hret git hgit]
    exact ⟨rfl, rfl, rfl⟩
  · intro git hgit
    rcases hcases with h | h | h <;> rw [h] at hgit
    · rw [← InitResult.thrown.inj hgit]
    · rw [← InitResult.thrown.inj hgit]
    · cases hgit
  · intro hashString fs timestamp message command hinit
    refine ⟨init_git_initialized disk path st hinit, ?_,
      commit_initialized _ _ _ _ _ hinit, ?_,
      mainLoopBody_initialized _ _ _ _ _ _ hinit⟩
    · rw [status_eq hashString fs st hinit]
      exact hinit
    · rw [log_fst]
      exact hinit
  · intro hashString fs timestamp message git hgit hhead
    rw [hret git hgit]
    have hinit : (afterInit path st).initialized = true := rfl
    have hhead' : (afterInit path st).head ≠ CommitNode.nullptr := hhead
    have hc := commit_head_nonroot hashString fs timestamp message (afterInit path st)
      hinit hhead'
    have hf := commit_head_fields hashString fs timestamp message (afterInit path st) hinit
    refine ⟨hf.1, hf.2.1, hf.2.2.2.2.1, commit_nextCommitId _ _ _ _ _ hinit, ?_, ?_, ?_⟩
    · rw [hc]
      show FileMap.keys _ = findNewFiles _ _
      rw [findNewFiles_eq]
      rfl
    · intro k
      rw [hc]
      exact mem_findNewFiles _ _ k
    · intro k
      rw [hc]
      exact mem_findDeletedFiles _ _ k

/-- C20, amended, on the state of Scenario B: `init("other")` on a disk where `other` is
a directory returns with the history kept; the next commit, on a directory that holds
only `c.txt`, has id 2, the first commit as parent, `c.txt` as added and `a.txt` as
deleted. -/
theorem init_frame_witness :
    (scenarioB sampleHash).head ≠ CommitNode.nullptr ∧
    init initDiskDirs "other" (scenarioB sampleHash) =
      InitResult.returned (afterInit "other" (scenarioB sampleHash)) ∧
    (afterInit "other" (scenarioB sampleHash)).initialized = true ∧
    (init initDiskDirs "other" (scenarioB sampleHash)).git.head =
      (scenarioB sampleHash).head ∧
    (commit sampleHash diskOther "t2" "c2"
        (afterInit "other" (scenarioB sampleHash))).head.commitId = 2 ∧
    (commit sampleHash diskOther "t2" "c2" (afterInit "other" (scenarioB sampleHash))).head =
      CommitNode.node 2 "c2" "t2" [("c.txt", FileInfo.make "c.txt" (sampleHash "q") "q")]
        [] ["c.txt"] ["a.txt"] (scenarioB sampleHash).head :=
  ⟨by decide, by decide,
    ((init_frame initDiskDirs "other" (scenarioB sampleHash)).2.2.1 _ (by decide)).1,
    (init_frame initDiskDirs "other" (scenarioB sampleHash)).1.1,
    (((init_frame initDiskDirs "other" (scenarioB sampleHash)).2.2.2.2.2 sampleHash
      diskOther "t2" "c2" _ (by decide) (by decide)).2.1).trans (by decide),
    by decide⟩

end MiniGit
